import Mathlib

/-!
Shallow embedding of the tagsfs core (src/database.rs, src/filesystem.rs,
src/error.rs) and proofs of the specification's claims about it.

Rust `String` / `OsString` values are embedded as `List Char` (the claims
restrict attention to valid UTF-8 names, where `to_string_lossy` is the
identity).  A `BTreeSet<String>` is embedded as a `List Str` that is
strictly ascending (`TSSorted`); its iteration order is exactly the list.
The sqlite tables are embedded as row lists with explicit autoincrement
counters.
-/

abbrev Str := List Char

/-- Rust `char` ordering: by unicode code point. -/
def charLt (a b : Char) : Bool := a.toNat < b.toNat

/-- Rust `String` ordering: lexicographic on chars (used by `BTreeSet<String>`). -/
def strLt : Str → Str → Bool
  | [], [] => false
  | [], _ :: _ => true
  | _ :: _, [] => false
  | a :: as, b :: bs =>
    if charLt a b then true
    else if charLt b a then false
    else strLt as bs

/-- The representation invariant of a `BTreeSet<String>`: strictly ascending list. -/
abbrev TSSorted (ts : List Str) : Prop := List.Chain' (fun a b => strLt a b = true) ts

/-- `BTreeSet::insert` on the sorted-list representation. -/
def tsInsert (x : Str) : List Str → List Str
  | [] => [x]
  | y :: ys =>
    if strLt x y then x :: y :: ys
    else if strLt y x then y :: tsInsert x ys
    else y :: ys

/-- `collect::<BTreeSet<_>>()` on the sorted-list representation. -/
def tsOfList (l : List Str) : List Str := l.foldr tsInsert []

/-- `BTreeSet::is_subset`: every element of `a` is an element of `b`. -/
def tsSubset (a b : List Str) : Bool := a.all (fun x => b.contains x)

/-- `BTreeSet::is_empty`. -/
def tsIsEmpty (a : List Str) : Bool := a.isEmpty

/-- Rust `data.split('/')`: splits at every `'/'`, keeping empty pieces
(so the empty string yields one empty piece). -/
def splitSlash : Str → List Str
  | [] => [[]]
  | c :: rest =>
    if c = '/' then [] :: splitSlash rest
    else
      match splitSlash rest with
      | [] => [[c]]
      | s :: ss => (c :: s) :: ss

/-- itertools `.join("/")` on the already-sorted tag iteration. -/
def joinSlash : List Str → Str
  | [] => []
  | [s] => s
  | s :: rest => s ++ '/' :: joinSlash rest

/-- A legal tag name: non-empty and free of the reserved delimiter `'/'`. -/
abbrev ValidTag (t : Str) : Prop := t ≠ [] ∧ '/' ∉ t

/-- A kernel-reducible decision procedure for `TSSorted` (Mathlib's `Chain'`
instance does not reduce). -/
instance tsSortedDecidable : ∀ ts, Decidable (TSSorted ts)
  | [] => isTrue List.chain'_nil
  | [_] => isTrue (List.chain'_singleton _)
  | a :: b :: rest =>
    match tsSortedDecidable (b :: rest) with
    | isTrue h =>
      if hab : strLt a b = true then isTrue (List.chain'_cons.mpr ⟨hab, h⟩)
      else isFalse (fun hc => hab (List.chain'_cons.mp hc).1)
    | isFalse h => isFalse (fun hc => h (List.chain'_cons.mp hc).2)

-- ## Basic lemmas about the string/set machinery

theorem charLt_asymm {a b : Char} (hab : charLt a b = false) (hba : charLt b a = false) :
    a = b := by
  simp only [charLt, decide_eq_false_iff_not, Nat.not_lt] at hab hba
  exact Char.ext (UInt32.ext (Nat.le_antisymm hba hab))

theorem strLt_total {a b : Str} (hab : strLt a b = false) (hba : strLt b a = false) :
    a = b := by
  induction a generalizing b with
  | nil => cases b with
    | nil => rfl
    | cons y ys => simp [strLt] at hab
  | cons x xs ih =>
    cases b with
    | nil => simp [strLt] at hba
    | cons y ys =>
      by_cases h1 : charLt x y = true
      · simp [strLt, h1] at hab
      · by_cases h2 : charLt y x = true
        · simp [strLt, h1, h2] at hba
        · have hxy : x = y := charLt_asymm (by simpa using h1) (by simpa using h2)
          simp only [strLt] at hab hba
          rw [if_neg h1, if_neg h2] at hab
          rw [if_neg h2, if_neg h1] at hba
          rw [hxy, ih hab hba]

theorem mem_tsInsert {x a : Str} {s : List Str} :
    x ∈ tsInsert a s ↔ x = a ∨ x ∈ s := by
  induction s with
  | nil => simp [tsInsert]
  | cons y ys ih =>
    simp only [tsInsert]
    by_cases h1 : strLt a y = true
    · simp [h1]
    · by_cases h2 : strLt y a = true
      · rw [if_neg (by simpa using h1), if_pos h2]
        simp only [List.mem_cons, ih]
        tauto
      · have hay : a = y := strLt_total (by simpa using h1) (by simpa using h2)
        subst hay
        rw [if_neg (by simpa using h1), if_neg (by simpa using h2)]
        simp only [List.mem_cons]
        tauto

theorem mem_tsOfList {x : Str} {l : List Str} : x ∈ tsOfList l ↔ x ∈ l := by
  induction l with
  | nil => simp [tsOfList]
  | cons a as ih =>
    simp only [tsOfList, List.foldr_cons]
    rw [show as.foldr tsInsert [] = tsOfList as from rfl] at *
    simp [mem_tsInsert, ih]

theorem tsOfList_sorted_id {ts : List Str} (h : TSSorted ts) : tsOfList ts = ts := by
  induction ts with
  | nil => rfl
  | cons a as ih =>
    have has : TSSorted as := (List.chain'_cons'.mp h).2
    simp only [tsOfList, List.foldr_cons]
    rw [show as.foldr tsInsert [] = tsOfList as from rfl, ih has]
    cases as with
    | nil => rfl
    | cons b bs =>
      have hab : strLt a b = true := (List.chain'_cons.mp h).1
      simp [tsInsert, hab]

theorem splitSlash_no_slash {s : Str} (h : '/' ∉ s) : splitSlash s = [s] := by
  induction s with
  | nil => rfl
  | cons c cs ih =>
    have hc : ¬(c = '/') := fun hc => h (hc ▸ List.mem_cons_self c cs)
    have hcs : '/' ∉ cs := fun hm => h (List.mem_cons_of_mem c hm)
    simp [splitSlash, hc, ih hcs]

theorem splitSlash_append {s r : Str} (h : '/' ∉ s) :
    splitSlash (s ++ '/' :: r) = s :: splitSlash r := by
  induction s with
  | nil => simp [splitSlash]
  | cons c cs ih =>
    have hc : ¬(c = '/') := fun hc => h (hc ▸ List.mem_cons_self c cs)
    have hcs : '/' ∉ cs := fun hm => h (List.mem_cons_of_mem c hm)
    simp only [List.cons_append, splitSlash, hc, if_false]
    rw [show cs ++ '/' :: r = cs.append ('/' :: r) from rfl] at ih
    rw [ih hcs]

theorem splitSlash_joinSlash {ts : List Str} (hne : ts ≠ [])
    (h : ∀ s ∈ ts, '/' ∉ s) : splitSlash (joinSlash ts) = ts := by
  induction ts with
  | nil => exact absurd rfl hne
  | cons s rest ih =>
    cases rest with
    | nil =>
      rw [show joinSlash [s] = s by simp [joinSlash]]
      exact splitSlash_no_slash (h s (List.mem_cons_self s []))
    | cons t ts' =>
      have hs : '/' ∉ s := h s (List.mem_cons_self _ _)
      rw [show joinSlash (s :: t :: ts') = s ++ '/' :: joinSlash (t :: ts') by simp [joinSlash],
        splitSlash_append hs,
        ih (by simp) (fun x hx => h x (List.mem_cons_of_mem s hx))]

-- ## Entry model (src/filesystem.rs, `enum Entry` and its serialization)

/-- The two entry kinds: a backing file by name, or a tag-set directory.
`Tags` holds the `BTreeSet<String>` representation (strictly ascending list). -/
inductive Entry where
  | File (name : Str)
  | Tags (tags : List Str)
deriving DecidableEq

def discFile : Str := "file".toList
def discTags : Str := "tags".toList

/-- `Entry::discrimimant_data` (name kept with the source's spelling):
`("file", name)` for files, `("tags", sorted names joined by '/')` for tag sets.
BTreeSet iteration is already ascending, so the source's extra `.sorted()` is
the identity on the representation. -/
def Entry.discrimimant_data : Entry → Str × Str
  | .File name => (discFile, name)
  | .Tags tags => (discTags, joinSlash tags)

/-- The TagDir payload parse used by `TagsFsDb::entry`:
`data.split('/').filter(|x| *x != "").collect::<BTreeSet<_>>()`. -/
def parseTags (data : Str) : List Str :=
  tsOfList ((splitSlash data).filter (fun x => !(x.isEmpty)))

/-- Validity of an Entry as constrained by the claims: tag names of a TagDir
are non-empty, contain no `'/'`, and the set is in its canonical (sorted)
representation.  File names carry no constraint (they embed the valid-UTF-8
names as `List Char`). -/
abbrev EntryValid : Entry → Prop
  | .File _ => True
  | .Tags ts => TSSorted ts ∧ ∀ t ∈ ts, ValidTag t

-- ## Database embedding (src/database.rs)

/-- Error kinds of src/error.rs.  `database` covers every `rusqlite::Error`
(including `QueryReturnedNoRows`). -/
inductive Err where
  | database
  | invalidEntryDiscriminant
  | ioError
  | stdC (errno : Nat)
deriving DecidableEq

deriving instance DecidableEq for Except

/-- The persisted index: the three tables and their autoincrement cursors.
Rows are listed in insertion (rowid) order.
`tags` rows are `(id, tag)`, `fileTags` rows are `(file, tag_id)`,
`inodes` rows are `(id, discriminant, data)`. -/
structure DB where
  tags : List (Nat × Str)
  fileTags : List (Str × Nat)
  inodes : List (Nat × Str × Str)
  nextTagId : Nat
  nextInodeId : Nat
deriving DecidableEq

/-- `SELECT tag FROM tags WHERE tag NOT IN (…)` in storage order. -/
def DB.sub_tags (db : DB) (tags : List Str) : List Str :=
  (db.tags.filter (fun r => !(tags.contains r.2))).map (fun r => r.2)

/-- Name of the tags row with the given id (used for the `JOIN` in `file_tags`). -/
def DB.tagNameOf (db : DB) (tid : Nat) : Option Str :=
  (db.tags.find? (fun r => r.1 == tid)).map (fun r => r.2)

/-- `TagsFsDb::file_tags`: the `DISTINCT` join of membership rows of `file`
with the tags table, collected into a `BTreeSet<String>`. -/
def DB.file_tags (db : DB) (file : Str) : List Str :=
  tsOfList ((db.fileTags.filter (fun r => r.1 == file)).filterMap
    (fun r => db.tagNameOf r.2))

/-- `SELECT id FROM tags WHERE tag = ?` via `query_row`: the first matching
row's id, or the no-rows storage error. -/
def DB.tag_id (db : DB) (tag : Str) : Except Err Nat :=
  match db.tags.find? (fun r => r.2 == tag) with
  | some r => .ok r.1
  | none => .error .database

/-- `TagsFsDb::create_tag`: `INSERT INTO tags (tag) VALUES (?)`, returning the
fresh rowid.  Modelled from the spec: the tags schema is not under src/; the
spec (§4.1) declares `tag` unique, so inserting an existing name is a
constraint violation (storage error). -/
def DB.create_tag (db : DB) (tag : Str) : Except Err (Nat × DB) :=
  if db.tags.any (fun r => r.2 == tag) then .error .database
  else .ok (db.nextTagId,
    { db with
        tags := db.tags ++ [(db.nextTagId, tag)]
        nextTagId := db.nextTagId + 1 })

/-- One `INSERT INTO file_tags (file, tag_id) VALUES (?, ?)`.
Modelled from the spec: the file_tags schema is not under src/; the spec
(§4.1, §5) declares `(file, tag_id)` unique with duplicate insertions leaving
exactly one row and not failing the operation (its scenario S4 re-adds a tag
the file already has and succeeds), so a duplicate insert is a no-op. -/
def DB.insertFileTag (db : DB) (file : Str) (tid : Nat) : DB :=
  if db.fileTags.contains (file, tid) then db
  else { db with fileTags := db.fileTags ++ [(file, tid)] }

/-- `TagsFsDb::add_tags_to_file`: for each tag, resolve its id
(`tag_id` or else `create_tag`) and insert the membership row.
Total: the create branch is only reached when the tag is absent, and the
membership insert never fails (see `DB.insertFileTag`). -/
def DB.add_tags_to_file (db : DB) (tags : List Str) (file : Str) : DB :=
  match tags with
  | [] => db
  | t :: ts =>
    match db.tag_id t with
    | .ok tid => (db.insertFileTag file tid).add_tags_to_file ts file
    | .error _ =>
      match db.create_tag t with
      | .ok r => (r.2.insertFileTag file r.1).add_tags_to_file ts file
      | .error _ =>
        -- unreachable: `create_tag` is only tried after `tag_id` found no row,
        -- so the uniqueness constraint cannot fire (in the source a failure
        -- here would be propagated by `?` and unwrapped by the callers)
        (db.insertFileTag file db.nextTagId).add_tags_to_file ts file

/-- `TagsFsDb::remove_tags_from_file`: for each tag, look up its id (failing
with the storage error if the tag does not exist) and delete the matching
membership rows. -/
def DB.remove_tags_from_file (db : DB) (tags : List Str) (file : Str) : Except Err DB :=
  match tags with
  | [] => .ok db
  | t :: ts =>
    match db.tag_id t with
    | .error e => .error e
    | .ok tid =>
      ({ db with
        fileTags := db.fileTags.filter
          (fun r => !(r.2 == tid && r.1 == file)) } : DB).remove_tags_from_file ts file

/-- `TagsFsDb::delete_tags`: for each tag, look up its id (failing with the
storage error if absent), delete the tags row and every membership row with
that id. -/
def DB.delete_tags (db : DB) (tags : List Str) : Except Err DB :=
  match tags with
  | [] => .ok db
  | t :: ts =>
    match db.tag_id t with
    | .error e => .error e
    | .ok tid =>
      ({ db with
          tags := db.tags.filter (fun r => !(r.1 == tid))
          fileTags := db.fileTags.filter (fun r => !(r.2 == tid)) } : DB).delete_tags ts

/-- `TagsFsDb::inode`: first inodes row matching the entry's
(discriminant, data), or the no-rows storage error. -/
def DB.inode (db : DB) (e : Entry) : Except Err Nat :=
  match db.inodes.find? (fun r =>
      r.2.1 == (e.discrimimant_data).1 && r.2.2 == (e.discrimimant_data).2) with
  | some r => .ok r.1
  | none => .error .database

/-- `TagsFsDb::create_inode`: insert a fresh inodes row and return its rowid.
Modelled from the spec: the inodes schema is not under src/; the spec (§4.1)
declares `(discriminant, data)` unique, but every caller reaches this only
after `inode` failed, so the insert succeeds. -/
def DB.create_inode (db : DB) (e : Entry) : Nat × DB :=
  (db.nextInodeId,
    { db with
        inodes := db.inodes ++ [(db.nextInodeId, e.discrimimant_data)]
        nextInodeId := db.nextInodeId + 1 })

/-- `TagsFsDb::inode_or_create`: `inode(entry).or_else(|_| create_inode(entry))`
(also the code path of `Entry::inode_or_create` and of readdir's
inode-then-create sequence). -/
def DB.inode_or_create (db : DB) (e : Entry) : Nat × DB :=
  match db.inode e with
  | .ok i => (i, db)
  | .error _ => db.create_inode e

/-- `TagsFsDb::entry`: fetch the inodes row with the given id (no-rows is a
storage error) and parse it by discriminant; `"tags"` data is split on `'/'`
with empty components discarded, `"file"` data is the file name, anything
else is `InvalidEntryDiscriminant`. -/
def DB.entry (db : DB) (ino : Nat) : Except Err Entry :=
  match db.inodes.find? (fun r => r.1 == ino) with
  | none => .error .database
  | some r =>
    if r.2.1 = discTags then .ok (.Tags (parseTags r.2.2))
    else if r.2.1 = discFile then .ok (.File r.2.2)
    else .error .invalidEntryDiscriminant

-- ## Filesystem surface (src/filesystem.rs)

def EPERM : Nat := 1
def ENOENT : Nat := 2
def ENODEV : Nat := 19
def EINVAL : Nat := 22
def ENOSYS : Nat := 38
def ENODATA : Nat := 61
def EEXIST : Nat := 17

/-- One entry of the backing source directory: its name, whether it is a
regular file, and its byte content (meaningless for non-files). -/
structure SrcFile where
  name : Str
  isFile : Bool
  content : List Nat
deriving DecidableEq

/-- The state the surface acts on: the index plus the backing source
directory listing in OS order. -/
structure FS where
  db : DB
  source : List SrcFile
deriving DecidableEq

/-- Outcome of a fuser handler: a reply value, a `reply.error(errno)`, or a
panic (the source's `.unwrap()` on a failed storage or IO call). -/
inductive Reply (α : Type) where
  | ok (val : α)
  | error (errno : Nat)
  | panic
deriving DecidableEq

/-- `source.join(name).canonicalize()` succeeds iff some entry (of any kind)
with that name exists in the source directory. -/
def srcExists (fs : FS) (name : Str) : Bool :=
  fs.source.any (fun f => f.name == name)

/-- `source_path.is_file()`. -/
def srcIsFile (fs : FS) (name : Str) : Bool :=
  fs.source.any (fun f => f.name == name && f.isFile)

/-- `TagsFs::lookup` (the inner `Result`-returning function): parent must be
a TagDir; a name present on the source is probed as a file (its inode is
*fetched*, and `?` propagates the storage error when the row is absent);
otherwise the name is probed against `sub_tags`, allocating the conjoined
TagDir inode on demand.  The returned attribute is represented by its ino. -/
def TagsFs.lookup (fs : FS) (parent : Nat) (name : Str) : Except Err (Nat × FS) :=
  match fs.db.entry parent with
  | .ok (.Tags tags) =>
    if srcExists fs name then
      match fs.db.inode (.File name) with
      | .error e => .error e
      | .ok ino =>
        if tsSubset tags (fs.db.file_tags name) then .ok (ino, fs)
        else .error (.stdC ENOENT)
    else
      match (fs.db.sub_tags tags).find? (fun row => row == name) with
      | some row =>
        let (ino, db') := fs.db.inode_or_create (.Tags (tsInsert row tags))
        .ok (ino, { fs with db := db' })
      | none => .error (.stdC ENOENT)
  | _ => .error (.stdC EINVAL)

/-- The fuser `lookup` handler: `StdC` errors reply their errno, every other
error replies ENODEV. -/
def TagsFs.lookupF (fs : FS) (parent : Nat) (name : Str) : Reply Nat × FS :=
  match TagsFs.lookup fs parent name with
  | .ok (ino, fs') => (.ok ino, fs')
  | .error (.stdC errno) => (.error errno, fs)
  | .error _ => (.error ENODEV, fs)

/-- The fuser `unlink` handler: for an empty parent tag set the backing file
is physically removed (`find_file`/`remove_file` failures are unwrapped,
i.e. panic); otherwise all of the parent's tags are removed from the file's
membership (a failure there is also unwrapped). -/
def TagsFs.unlinkF (fs : FS) (parent : Nat) (name : Str) : Reply Unit × FS :=
  match fs.db.entry parent with
  | .ok (.Tags tags) =>
    if tsIsEmpty tags then
      match fs.source.find? (fun f => f.name == name) with
      | some sf =>
        if sf.isFile then
          (.ok (), { fs with source := fs.source.filter (fun f => !(f.name == name)) })
        else (.panic, fs)
      | none => (.panic, fs)
    else
      match fs.db.remove_tags_from_file tags name with
      | .ok db' => (.ok (), { fs with db := db' })
      | .error _ => (.panic, fs)
  | _ => (.error EINVAL, fs)

/-- The fuser `rmdir` handler: `delete_tags({name}).unwrap()`, ignoring the
parent.  A missing tag fails the id lookup before any mutation, and the
`.unwrap()` panics. -/
def TagsFs.rmdirF (fs : FS) (parent : Nat) (name : Str) : Reply Unit × FS :=
  match fs.db.delete_tags [name] with
  | .ok db' => (.ok (), { fs with db := db' })
  | .error _ => (.panic, fs)

/-- The fuser `rename` handler: both parents must be TagDirs; removes
`tags \ newtags` from the file's membership, then adds `newtags \ tags`;
`newname` is ignored.  Storage failures of the two updates are unwrapped. -/
def TagsFs.renameF (fs : FS) (parent : Nat) (name : Str) (newparent : Nat)
    (newname : Str) : Reply Unit × FS :=
  match fs.db.entry parent with
  | .ok (.Tags tags) =>
    match fs.db.entry newparent with
    | .ok (.Tags newtags) =>
      match fs.db.remove_tags_from_file
          (tags.filter (fun t => !(newtags.contains t))) name with
      | .error _ => (.panic, fs)
      | .ok db1 =>
        (.ok (),
          { fs with
              db := db1.add_tags_to_file
                (newtags.filter (fun t => !(tags.contains t))) name })
    | _ => (.error EINVAL, fs)
  | _ => (.error EINVAL, fs)

inductive FType where
  | RegularFile
  | Directory
deriving DecidableEq

/-- One tuple passed to `reply.add`: inode, resume cookie, kind, name. -/
structure DirEntry where
  ino : Nat
  cookie : Int
  kind : FType
  name : Str
deriving DecidableEq

/-- Phase A of `readdir`: walk the source listing in order, incrementing the
cookie for *every* entry, skipping cookies ≤ offset, skipping entries whose
tags are not a superset of the directory's, fetching-or-creating the
`Entry::File` inode for the rest, and emitting only the regular files. -/
def readdirFiles (tags : List Str) (offset : Int) :
    List SrcFile → Int → DB → List DirEntry → Int × DB × List DirEntry
  | [], cur, db, acc => (cur, db, acc)
  | sf :: rest, cur, db, acc =>
    let cur' := cur + 1
    if cur' ≤ offset then readdirFiles tags offset rest cur' db acc
    else if !(tsSubset tags (db.file_tags sf.name)) then
      readdirFiles tags offset rest cur' db acc
    else
      let p := db.inode_or_create (.File sf.name)
      if sf.isFile then
        readdirFiles tags offset rest cur' p.2
          (acc ++ [{ ino := p.1, cookie := cur', kind := .RegularFile, name := sf.name }])
      else readdirFiles tags offset rest cur' p.2 acc

/-- Phase B of `readdir`: walk `sub_tags` in storage order, continuing the
cookie, skipping cookies ≤ offset, fetching-or-creating the *singleton*
TagDir inode and emitting it as a directory. -/
def readdirTags (offset : Int) :
    List Str → Int → DB → List DirEntry → Int × DB × List DirEntry
  | [], cur, db, acc => (cur, db, acc)
  | t :: ts, cur, db, acc =>
    let cur' := cur + 1
    if cur' ≤ offset then readdirTags offset ts cur' db acc
    else
      let p := db.inode_or_create (.Tags [t])
      readdirTags offset ts cur' p.2
        (acc ++ [{ ino := p.1, cookie := cur', kind := .Directory, name := t }])

/-- The fuser `readdir` handler: File inodes get EINVAL, unknown inodes
ENOENT; a TagDir is enumerated in the two phases (the reply buffer is
modelled as never filling, which is what the pagination-ignoring claims
assume). -/
def TagsFs.readdirF (fs : FS) (ino : Nat) (offset : Int) :
    Reply (List DirEntry) × FS :=
  match fs.db.entry ino with
  | .ok (.File _) => (.error EINVAL, fs)
  | .error _ => (.error ENOENT, fs)
  | .ok (.Tags tags) =>
    let pa := readdirFiles tags offset fs.source 0 fs.db []
    let pb := readdirTags offset (pa.2.1.sub_tags tags) pa.1 pa.2.1 pa.2.2
    (.ok pb.2.2, { fs with db := pb.2.1 })

/-- The fuser `mkdir` handler: `create_tag(name).unwrap()` and reply with the
fresh tags-table rowid as the inode; no inodes row is created. -/
def TagsFs.mkdirF (fs : FS) (parent : Nat) (name : Str) : Reply Nat × FS :=
  match fs.db.create_tag name with
  | .ok (ino, db') => (.ok ino, { fs with db := db' })
  | .error _ => (.panic, fs)

/-- The fuser `create` handler: EEXIST if `source/name` is already a regular
file; otherwise `libc::creat` makes the (empty) backing file, the
`Entry::File` inode is fetched-or-created, and the tags of `parent` — the
empty set when `entry(parent)` fails or is a File — are added to the file's
membership.  An existing non-file entry of that name makes `creat` fail,
which the source mishandles (fd compared against 0, then closed); that
branch is modelled as a panic and is unreachable in the claims. -/
def TagsFs.createF (fs : FS) (parent : Nat) (name : Str) (mode umask : Nat) :
    Reply Nat × FS :=
  if srcIsFile fs name then (.error EEXIST, fs)
  else
    match fs.source.find? (fun f => f.name == name) with
    | some _ => (.panic, fs)
    | none =>
      let source' := fs.source ++ [{ name := name, isFile := true, content := [] }]
      let (ino, db') := fs.db.inode_or_create (.File name)
      let tags :=
        match db'.entry parent with
        | .ok (.Tags tags) => tags
        | _ => []
      (.ok ino, { db := db'.add_tags_to_file tags name, source := source' })

-- ## Structural invariants of the index

/-- Inodes-table health: every rowid is below the autoincrement cursor and
rowids are pairwise distinct. -/
abbrev InoIdsOk (db : DB) : Prop :=
  (∀ r ∈ db.inodes, r.1 < db.nextInodeId) ∧ (db.inodes.map (fun r => r.1)).Nodup

/-- Tags-table health: rowids below the cursor and pairwise distinct, and
tag names pairwise distinct (the spec's `tag → unique string`). -/
abbrev TagsOk (db : DB) : Prop :=
  (∀ r ∈ db.tags, r.1 < db.nextTagId) ∧ (db.tags.map (fun r => r.1)).Nodup ∧
    (db.tags.map (fun r => r.2)).Nodup

/-- Referential integrity: every membership row points at an existing tags row. -/
abbrev FTRefsOk (db : DB) : Prop :=
  ∀ r ∈ db.fileTags, ∃ tr ∈ db.tags, tr.1 = r.2

-- ## Generic find? helpers

theorem find?_key_unique {α κ : Type} [DecidableEq κ] {l : List α} (key : α → κ)
    (hnd : (l.map key).Nodup) {r : α} (hr : r ∈ l) :
    l.find? (fun x => key x == key r) = some r := by
  induction l with
  | nil => cases hr
  | cons y ys ih =>
    rcases List.mem_cons.mp hr with hy | hy
    · subst hy
      simp [List.find?]
    · have hkey : key y ≠ key r := by
        intro hk
        have : key r ∈ ys.map key := List.mem_map.mpr ⟨r, hy, rfl⟩
        rw [← hk] at this
        exact (List.nodup_cons.mp hnd).1 this
      rw [List.find?]
      rw [show (key y == key r) = false from beq_eq_false_iff_ne.mpr hkey]
      exact ih (List.nodup_cons.mp hnd).2 hy

theorem find?_append_none {α : Type} {l1 l2 : List α} {p : α → Bool}
    (h : l1.find? p = none) : (l1 ++ l2).find? p = l2.find? p := by
  induction l1 with
  | nil => simp
  | cons x xs ih =>
    rw [List.cons_append]
    rw [List.find?_cons] at h ⊢
    cases hp : p x with
    | true => simp [hp] at h
    | false =>
      simp only [hp] at h ⊢
      exact ih h

theorem find?_append_some {α : Type} {l1 l2 : List α} {p : α → Bool} {r : α}
    (h : l1.find? p = some r) : (l1 ++ l2).find? p = some r := by
  induction l1 with
  | nil => simp at h
  | cons x xs ih =>
    rw [List.cons_append]
    rw [List.find?_cons] at h ⊢
    cases hp : p x with
    | true => simpa [hp] using h
    | false =>
      simp only [hp] at h ⊢
      exact ih h

-- ## Round-trip of the Entry serialization

theorem parseTags_joinSlash {ts : List Str} (hs : TSSorted ts)
    (hv : ∀ t ∈ ts, ValidTag t) : parseTags (joinSlash ts) = ts := by
  cases ts with
  | nil => rfl
  | cons t rest =>
    unfold parseTags
    rw [splitSlash_joinSlash (by simp) (fun s hsm => ((hv s hsm).2 : '/' ∉ s))]
    rw [List.filter_eq_self.mpr (fun s hsm => by
      have : s ≠ [] := (hv s hsm).1
      simpa [List.isEmpty_iff] using this)]
    exact tsOfList_sorted_id hs

theorem discFile_ne_discTags : discFile ≠ discTags := by decide

/-- Parsing the serialized form of a valid entry recovers the entry. -/
theorem entry_parse_row {e : Entry} (he : EntryValid e) :
    (if (e.discrimimant_data).1 = discTags
      then Except.ok (Entry.Tags (parseTags (e.discrimimant_data).2))
      else if (e.discrimimant_data).1 = discFile
        then Except.ok (Entry.File (e.discrimimant_data).2)
        else Except.error Err.invalidEntryDiscriminant) = .ok e := by
  cases e with
  | File name =>
    simp [Entry.discrimimant_data, discFile_ne_discTags]
  | Tags ts =>
    simp [Entry.discrimimant_data, parseTags_joinSlash he.1 he.2]

-- ## inode_or_create: effect on the tables and the round-trip (claim C1's core)

theorem inode_or_create_frame (db : DB) (e : Entry) :
    ((db.inode_or_create e).2.tags = db.tags ∧
      (db.inode_or_create e).2.fileTags = db.fileTags ∧
      (db.inode_or_create e).2.nextTagId = db.nextTagId) ∧
    ∃ l, (db.inode_or_create e).2.inodes = db.inodes ++ l ∧
      (∀ r ∈ l, db.nextInodeId ≤ r.1 ∧ r.2 = e.discrimimant_data) ∧
      db.nextInodeId ≤ (db.inode_or_create e).2.nextInodeId := by
  unfold DB.inode_or_create
  cases h : db.inode e with
  | ok i => exact ⟨⟨rfl, rfl, rfl⟩, [], by simp⟩
  | error err =>
    refine ⟨⟨rfl, rfl, rfl⟩, [(db.nextInodeId, e.discrimimant_data)], ?_, ?_, ?_⟩
    · simp [DB.create_inode]
    · simp
    · simp [DB.create_inode]

theorem inode_or_create_inoIdsOk {db : DB} (e : Entry) (h : InoIdsOk db) :
    InoIdsOk (db.inode_or_create e).2 := by
  unfold DB.inode_or_create
  cases hi : db.inode e with
  | ok i => exact h
  | error err =>
    constructor
    · intro r hr
      simp only [DB.create_inode, List.mem_append, List.mem_singleton] at hr ⊢
      rcases hr with hr | hr
      · exact Nat.lt_succ_of_lt (h.1 r hr)
      · subst hr; exact Nat.lt_succ_self _
    · simp only [DB.create_inode, List.map_append, List.map_cons, List.map_nil]
      rw [List.nodup_append]
      refine ⟨h.2, List.nodup_singleton _, ?_⟩
      intro a ha hb
      simp only [List.mem_singleton] at hb
      subst hb
      rcases List.mem_map.mp ha with ⟨r, hr, hid⟩
      exact absurd (hid ▸ h.1 r hr) (Nat.lt_irrefl _)

/-- Stability: once `entry` resolves an inode, appending inode rows cannot
change the resolution. -/
theorem entry_extend {db db' : DB} {i : Nat} {e : Entry}
    (h : db.entry i = .ok e) (hx : ∃ l, db'.inodes = db.inodes ++ l) :
    db'.entry i = .ok e := by
  obtain ⟨l, hl⟩ := hx
  unfold DB.entry at h ⊢
  cases hf : db.inodes.find? (fun r => r.1 == i) with
  | none => rw [hf] at h; exact absurd h (by simp)
  | some r =>
    rw [hf] at h
    rw [hl, find?_append_some hf]
    exact h

/-- `DB.entry` computed from the row `find?` resolves. -/
theorem entry_of_find {db : DB} {i : Nat} {r : Nat × Str × Str}
    (hf : db.inodes.find? (fun x => x.1 == i) = some r) :
    db.entry i =
      (if r.2.1 = discTags then Except.ok (Entry.Tags (parseTags r.2.2))
        else if r.2.1 = discFile then Except.ok (Entry.File r.2.2)
        else Except.error Err.invalidEntryDiscriminant) := by
  unfold DB.entry
  rw [hf]

/-- The round-trip at the heart of claim C1: the inode returned by
inode-or-create resolves back to the entry. -/
theorem inode_or_create_entry {db : DB} {e : Entry}
    (hdb : InoIdsOk db) (he : EntryValid e) :
    (db.inode_or_create e).2.entry (db.inode_or_create e).1 = .ok e := by
  unfold DB.inode_or_create
  cases hi : db.inode e with
  | ok i =>
    unfold DB.inode at hi
    cases hf : db.inodes.find? (fun r =>
        r.2.1 == (e.discrimimant_data).1 && r.2.2 == (e.discrimimant_data).2) with
    | none => rw [hf] at hi; exact absurd hi (by simp)
    | some r =>
      rw [hf] at hi
      have hiv : i = r.1 := by
        have := hi
        simp only [Except.ok.injEq] at this
        exact this.symm
      have hrmem : r ∈ db.inodes := List.mem_of_find?_eq_some hf
      have hkey : r.2 = e.discrimimant_data := by
        have hp := List.find?_some hf
        have h1 : r.2.1 = (e.discrimimant_data).1 := by
          have := (Bool.and_eq_true _ _).mp hp
          exact eq_of_beq this.1
        have h2 : r.2.2 = (e.discrimimant_data).2 := by
          have := (Bool.and_eq_true _ _).mp hp
          exact eq_of_beq this.2
        exact Prod.ext h1 h2
      have hfind : db.inodes.find? (fun x => x.1 == r.1) = some r :=
        find?_key_unique (fun x => x.1) hdb.2 hrmem
      simp only
      rw [hiv, entry_of_find hfind, hkey]
      exact entry_parse_row he
  | error err =>
    have hnone : ((db.create_inode e).2).inodes.find? (fun x => x.1 == db.nextInodeId) =
        some (db.nextInodeId, e.discrimimant_data) := by
      have h0 : db.inodes.find? (fun x => x.1 == db.nextInodeId) = none := by
        rw [List.find?_eq_none]
        intro r hr
        have := hdb.1 r hr
        simp only [beq_iff_eq]
        exact Nat.ne_of_lt this
      show (db.inodes ++ [(db.nextInodeId, e.discrimimant_data)]).find? _ = _
      rw [find?_append_none h0]
      simp [List.find?_cons]
    simp only
    rw [show (db.create_inode e).1 = db.nextInodeId from rfl, entry_of_find hnone]
    exact entry_parse_row he

-- ## Claim C1

/-- C1: Round-trip of the Entry serialization — for every Entry `e` whose tag
names are non-empty, `'/'`-free and canonically represented, and whose file
name is (valid-UTF-8, hence faithfully embedded), if `inode_or_create(e)`
returns inode `i` then `entry(i) = e`; and the TagDir payload is split on
`'/'` with empty components discarded, so the empty payload parses to the
empty tag set. -/
theorem C1_entry_roundtrip (db : DB) (e : Entry)
    (hdb : InoIdsOk db) (he : EntryValid e) :
    (db.inode_or_create e).2.entry (db.inode_or_create e).1 = .ok e ∧
      parseTags [] = [] := by
  exact ⟨inode_or_create_entry hdb he, rfl⟩

/-- A fresh index holding only the root inode row (the seeded state the
surface asserts at mount). -/
def freshDB : DB :=
  { tags := [], fileTags := [], inodes := [(1, discTags, [])], nextTagId := 1, nextInodeId := 2 }

/-- C1 witness: the round-trip evaluated on a fresh index (root row only) and
the two-tag entry `{a, b}`. -/
theorem C1_entry_roundtrip_witness :
    InoIdsOk freshDB ∧ EntryValid (.Tags [['a'], ['b']]) ∧
    ((freshDB.inode_or_create (.Tags [['a'], ['b']])).2.entry
        (freshDB.inode_or_create (.Tags [['a'], ['b']])).1 = .ok (.Tags [['a'], ['b']]) ∧
      parseTags [] = []) := by
  refine ⟨by decide, ⟨by decide, by decide⟩, ?_⟩
  exact C1_entry_roundtrip freshDB _ (by decide) ⟨by decide, by decide⟩

-- ## Membership characterization

/-- `t` is a tag of `f` in the join sense of `TagsFsDb::file_tags`: some
membership row of `f` resolves to a tags row named `t`. -/
def HasTag (db : DB) (f t : Str) : Prop :=
  ∃ r ∈ db.fileTags, r.1 = f ∧ db.tagNameOf r.2 = some t

theorem mem_file_tags {db : DB} {f t : Str} :
    t ∈ db.file_tags f ↔ HasTag db f t := by
  unfold DB.file_tags HasTag
  rw [mem_tsOfList]
  simp only [List.mem_filterMap, List.mem_filter, beq_iff_eq]
  constructor
  · rintro ⟨r, ⟨hr, hf⟩, hn⟩
    exact ⟨r, hr, hf, hn⟩
  · rintro ⟨r, hr, hf, hn⟩
    exact ⟨r, ⟨hr, hf⟩, hn⟩

theorem tagNameOf_of_mem {db : DB} (hnd : (db.tags.map (fun r => r.1)).Nodup)
    {r : Nat × Str} (hr : r ∈ db.tags) : db.tagNameOf r.1 = some r.2 := by
  unfold DB.tagNameOf
  rw [find?_key_unique (fun x => x.1) hnd hr]
  rfl

theorem tagNameOf_spec {db : DB} {i : Nat} {t : Str} (h : db.tagNameOf i = some t) :
    ∃ r ∈ db.tags, r.1 = i ∧ r.2 = t := by
  unfold DB.tagNameOf at h
  cases hf : db.tags.find? (fun r => r.1 == i) with
  | none => rw [hf] at h; exact absurd h (by simp)
  | some r =>
    rw [hf] at h
    have hp := List.find?_some (p := fun (r : Nat × Str) => r.1 == i) hf
    refine ⟨r, List.mem_of_find?_eq_some hf, beq_iff_eq.mp hp, ?_⟩
    simpa using h

theorem tag_id_spec {db : DB} {t : Str} {tid : Nat} (h : db.tag_id t = .ok tid) :
    ∃ r ∈ db.tags, r.1 = tid ∧ r.2 = t := by
  unfold DB.tag_id at h
  cases hf : db.tags.find? (fun r => r.2 == t) with
  | none => rw [hf] at h; exact absurd h (by simp)
  | some r =>
    rw [hf] at h
    have hp := List.find?_some (p := fun (r : Nat × Str) => r.2 == t) hf
    refine ⟨r, List.mem_of_find?_eq_some hf, ?_, beq_iff_eq.mp hp⟩
    have := h.symm
    simp only [Except.ok.injEq] at this
    exact this.symm

theorem tag_id_ok_of_mem {db : DB} {t : Str} (h : ∃ r ∈ db.tags, r.2 = t) :
    ∃ tid, db.tag_id t = .ok tid := by
  unfold DB.tag_id
  cases hf : db.tags.find? (fun r => r.2 == t) with
  | none =>
    obtain ⟨r, hr, hn⟩ := h
    have := List.find?_eq_none.mp hf r hr
    simp [hn] at this
  | some r => exact ⟨r.1, rfl⟩

theorem tag_id_err_of_not_mem {db : DB} {t : Str} (h : ∀ r ∈ db.tags, r.2 ≠ t) :
    db.tag_id t = .error .database := by
  unfold DB.tag_id
  rw [List.find?_eq_none.mpr (fun r hr => by simpa using h r hr)]

/-- Two tags rows with the same name are the same row (name uniqueness). -/
theorem tags_row_unique {db : DB} (hnames : (db.tags.map (fun r => r.2)).Nodup)
    {r s : Nat × Str} (hr : r ∈ db.tags) (hs : s ∈ db.tags) (h : r.2 = s.2) :
    r = s :=
  List.inj_on_of_nodup_map hnames hr hs h

-- ## remove_tags_from_file

/-- One membership-row deletion step: removing the rows `(f, tid)` where
`tid` is the id of the tags row named `t₀` removes exactly the membership
fact `(f, t₀)`. -/
theorem hasTag_delete_step {db : DB} {f t₀ : Str} {tid : Nat}
    (hok : TagsOk db)
    (hrow : ∃ r ∈ db.tags, r.1 = tid ∧ r.2 = t₀) (g t : Str) :
    HasTag { db with fileTags := db.fileTags.filter (fun r => !(r.2 == tid && r.1 == f)) } g t
      ↔ HasTag db g t ∧ ¬(g = f ∧ t = t₀) := by
  obtain ⟨r0, hr0, hid0, hn0⟩ := hrow
  constructor
  · rintro ⟨r, hrm, hg, hname⟩
    rw [List.mem_filter] at hrm
    have hsurv : ¬(r.2 = tid ∧ r.1 = f) := by
      intro hc
      have := hrm.2
      simp [hc.1, hc.2] at this
    refine ⟨⟨r, hrm.1, hg, hname⟩, ?_⟩
    rintro ⟨hgf, ht0⟩
    subst hgf; subst ht0
    obtain ⟨row, hrowm, hrowid, hrown⟩ := tagNameOf_spec hname
    have : row = r0 := tags_row_unique hok.2.2 hrowm hr0 (hrown.trans hn0.symm)
    exact hsurv ⟨by rw [← hrowid, this, hid0], hg⟩
  · rintro ⟨⟨r, hrm, hg, hname⟩, hneg⟩
    refine ⟨r, ?_, hg, hname⟩
    rw [List.mem_filter]
    refine ⟨hrm, ?_⟩
    by_contra hp
    simp only [Bool.not_eq_true', Bool.not_eq_false, Bool.and_eq_true, beq_iff_eq] at hp
    obtain ⟨h2, h1⟩ := hp
    have hres : db.tagNameOf tid = some t₀ := by
      have := tagNameOf_of_mem hok.2.1 hr0
      rw [hid0] at this
      rw [this, hn0]
    rw [h2, hres] at hname
    exact hneg ⟨hg ▸ h1, (Option.some.injEq _ _ ▸ hname.symm : t = t₀)⟩

/-- `remove_tags_from_file` succeeds when every tag named exists, leaves the
other tables untouched, and removes from the membership exactly the pairs
`(f, t)` with `t` in the list. -/
theorem remove_tags_spec {f : Str} : ∀ (ts : List Str) (db : DB),
    TagsOk db →
    (∀ t ∈ ts, ∃ r ∈ db.tags, r.2 = t) →
    ∃ db', db.remove_tags_from_file ts f = .ok db' ∧
      db'.tags = db.tags ∧ db'.inodes = db.inodes ∧
      db'.nextTagId = db.nextTagId ∧ db'.nextInodeId = db.nextInodeId ∧
      (∀ r ∈ db'.fileTags, r ∈ db.fileTags) ∧
      (∀ g t, HasTag db' g t ↔ HasTag db g t ∧ ¬(g = f ∧ t ∈ ts))
  | [], db, hok, hex => ⟨db, rfl, rfl, rfl, rfl, rfl, fun r hr => hr, by simp [HasTag]⟩
  | t₀ :: ts, db, hok, hex => by
    obtain ⟨tid, htid⟩ := tag_id_ok_of_mem (hex t₀ (List.mem_cons_self _ _))
    obtain ⟨r0, hr0, hid0, hn0⟩ := tag_id_spec htid
    set db1 : DB :=
      { db with fileTags := db.fileTags.filter (fun r => !(r.2 == tid && r.1 == f)) } with hdb1
    have hok1 : TagsOk db1 := hok
    have hex1 : ∀ t ∈ ts, ∃ r ∈ db1.tags, r.2 = t :=
      fun t ht => hex t (List.mem_cons_of_mem _ ht)
    obtain ⟨db', hrun, htags, hinos, hntid, hnino, hsub, hchar⟩ :=
      remove_tags_spec ts db1 hok1 hex1
    refine ⟨db', ?_, htags, hinos, hntid, hnino, ?_, ?_⟩
    · show db.remove_tags_from_file (t₀ :: ts) f = .ok db'
      unfold DB.remove_tags_from_file
      rw [htid]
      exact hrun
    · intro r hr
      have := hsub r hr
      rw [hdb1] at this
      exact (List.mem_filter.mp this).1
    · intro g t
      rw [hchar g t, hasTag_delete_step hok ⟨r0, hr0, hid0, hn0⟩ g t]
      constructor
      · rintro ⟨⟨h1, h2⟩, h3⟩
        exact ⟨h1, by
          rintro ⟨hgf, hts⟩
          rcases List.mem_cons.mp hts with h | h
          · exact h2 ⟨hgf, h⟩
          · exact h3 ⟨hgf, h⟩⟩
      · rintro ⟨h1, h2⟩
        refine ⟨⟨h1, ?_⟩, ?_⟩
        · rintro ⟨hgf, ht⟩
          exact h2 ⟨hgf, List.mem_cons.mpr (Or.inl ht)⟩
        · rintro ⟨hgf, ht⟩
          exact h2 ⟨hgf, List.mem_cons.mpr (Or.inr ht)⟩

-- ## add_tags_to_file

theorem tagNameOf_extend {db db' : DB} (hx : ∃ l, db'.tags = db.tags ++ l)
    {i : Nat} {t : Str} (h : db.tagNameOf i = some t) : db'.tagNameOf i = some t := by
  obtain ⟨l, hl⟩ := hx
  unfold DB.tagNameOf at h ⊢
  cases hf : db.tags.find? (fun r => r.1 == i) with
  | none => rw [hf] at h; simp at h
  | some r =>
    rw [hf] at h
    rw [hl, find?_append_some hf]
    exact h

/-- Inserting a membership row `(f, tid)` for the tags row named `t₀` adds
exactly the membership fact `(f, t₀)`. -/
theorem insertFileTag_hasTag {db : DB} {f t₀ : Str} {tid : Nat}
    (hok : TagsOk db)
    (hrow : ∃ r ∈ db.tags, r.1 = tid ∧ r.2 = t₀) (g t : Str) :
    HasTag (db.insertFileTag f tid) g t ↔ HasTag db g t ∨ (g = f ∧ t = t₀) := by
  obtain ⟨r0, hr0, hid0, hn0⟩ := hrow
  have hres : db.tagNameOf tid = some t₀ := by
    have := tagNameOf_of_mem hok.2.1 hr0
    rw [hid0] at this
    rw [this, hn0]
  unfold DB.insertFileTag
  by_cases hc : db.fileTags.contains (f, tid) = true
  · rw [if_pos hc]
    constructor
    · exact Or.inl
    · rintro (h | ⟨hgf, ht⟩)
      · exact h
      · exact ⟨(f, tid), by simpa using hc, hgf.symm, by rw [ht]; exact hres⟩
  · rw [if_neg hc]
    constructor
    · rintro ⟨r, hrm, hg, hname⟩
      rcases List.mem_append.mp hrm with h | h
      · exact Or.inl ⟨r, h, hg, hname⟩
      · rw [List.mem_singleton] at h
        subst h
        right
        refine ⟨hg.symm, ?_⟩
        have : db.tagNameOf tid = some t := hname
        rw [hres] at this
        simpa using this.symm
    · rintro (⟨r, hrm, hg, hname⟩ | ⟨hgf, ht⟩)
      · exact ⟨r, List.mem_append_left _ hrm, hg, hname⟩
      · exact ⟨(f, tid), List.mem_append_right _ (List.mem_singleton_self _), hgf.symm,
          by rw [ht]; exact hres⟩

theorem insertFileTag_frame (db : DB) (f : Str) (tid : Nat) :
    (db.insertFileTag f tid).tags = db.tags ∧
    (db.insertFileTag f tid).inodes = db.inodes ∧
    (db.insertFileTag f tid).nextTagId = db.nextTagId ∧
    (db.insertFileTag f tid).nextInodeId = db.nextInodeId := by
  unfold DB.insertFileTag
  by_cases hc : db.fileTags.contains (f, tid) = true
  · rw [if_pos hc]; exact ⟨rfl, rfl, rfl, rfl⟩
  · rw [if_neg hc]; exact ⟨rfl, rfl, rfl, rfl⟩

theorem insertFileTag_refs {db : DB} {f : Str} {tid : Nat}
    (hrefs : FTRefsOk db) (hrow : ∃ r ∈ db.tags, r.1 = tid) :
    FTRefsOk (db.insertFileTag f tid) := by
  unfold DB.insertFileTag
  by_cases hc : db.fileTags.contains (f, tid) = true
  · rw [if_pos hc]; exact hrefs
  · rw [if_neg hc]
    intro r hr
    rcases List.mem_append.mp hr with h | h
    · exact hrefs r h
    · rw [List.mem_singleton] at h
      subst h
      obtain ⟨tr, htr, hid⟩ := hrow
      exact ⟨tr, htr, hid⟩

theorem insertFileTag_nodup {db : DB} {f : Str} {tid : Nat}
    (h : db.fileTags.Nodup) : (db.insertFileTag f tid).fileTags.Nodup := by
  unfold DB.insertFileTag
  by_cases hc : db.fileTags.contains (f, tid) = true
  · rw [if_pos hc]; exact h
  · rw [if_neg hc]
    rw [List.nodup_append]
    refine ⟨h, List.nodup_singleton _, ?_⟩
    intro a ha hb
    rw [List.mem_singleton] at hb
    subst hb
    exact hc (by simpa using ha)

/-- `create_tag` on an absent name: the exact result row and its effects. -/
theorem create_tag_spec {db : DB} {t₀ : Str}
    (hok : TagsOk db) (hrefs : FTRefsOk db)
    (hnone : ∀ r ∈ db.tags, r.2 ≠ t₀) :
    db.create_tag t₀ = .ok (db.nextTagId, { db with tags := db.tags ++ [(db.nextTagId, t₀)], nextTagId := db.nextTagId + 1 }) ∧
    TagsOk { db with tags := db.tags ++ [(db.nextTagId, t₀)], nextTagId := db.nextTagId + 1 } ∧
    FTRefsOk { db with tags := db.tags ++ [(db.nextTagId, t₀)], nextTagId := db.nextTagId + 1 } ∧
    (∀ g t, HasTag { db with tags := db.tags ++ [(db.nextTagId, t₀)], nextTagId := db.nextTagId + 1 } g t ↔ HasTag db g t) := by
  have hany : db.tags.any (fun r => r.2 == t₀) = false := by
    rw [Bool.eq_false_iff]
    intro hc
    obtain ⟨r, hr, hb⟩ := List.any_eq_true.mp hc
    exact hnone r hr (beq_iff_eq.mp hb)
  refine ⟨?_, ⟨?_, ?_, ?_⟩, ?_, ?_⟩
  · unfold DB.create_tag
    rw [hany]
    simp
  · intro r hr
    rcases List.mem_append.mp hr with h | h
    · exact Nat.lt_succ_of_lt (hok.1 r h)
    · rw [List.mem_singleton] at h
      subst h
      exact Nat.lt_succ_self _
  · simp only [List.map_append, List.map_cons, List.map_nil]
    rw [List.nodup_append]
    refine ⟨hok.2.1, List.nodup_singleton _, ?_⟩
    intro a ha hb
    rw [List.mem_singleton] at hb
    subst hb
    rcases List.mem_map.mp ha with ⟨r, hr, hid⟩
    exact absurd (hid ▸ hok.1 r hr) (Nat.lt_irrefl _)
  · simp only [List.map_append, List.map_cons, List.map_nil]
    rw [List.nodup_append]
    refine ⟨hok.2.2, List.nodup_singleton _, ?_⟩
    intro a ha hb
    rw [List.mem_singleton] at hb
    subst hb
    rcases List.mem_map.mp ha with ⟨r, hr, hn⟩
    exact hnone r hr hn
  · intro r hr
    obtain ⟨tr, htr, hid⟩ := hrefs r hr
    exact ⟨tr, List.mem_append_left _ htr, hid⟩
  · intro g t
    constructor
    · rintro ⟨r, hrm, hg, hname⟩
      obtain ⟨tr, htr, hid⟩ := hrefs r hrm
      have hold : db.tagNameOf r.2 = some tr.2 := by
        have := tagNameOf_of_mem hok.2.1 htr
        rw [hid] at this
        exact this
      have hnew : DB.tagNameOf { db with tags := db.tags ++ [(db.nextTagId, t₀)], nextTagId := db.nextTagId + 1 } r.2 = some tr.2 :=
        tagNameOf_extend ⟨[(db.nextTagId, t₀)], rfl⟩ hold
      rw [hname] at hnew
      refine ⟨r, hrm, hg, ?_⟩
      rw [hold]
      simpa using hnew.symm
    · rintro ⟨r, hrm, hg, hname⟩
      exact ⟨r, hrm, hg, tagNameOf_extend ⟨[(db.nextTagId, t₀)], rfl⟩ hname⟩

/-- `add_tags_to_file`: never fails, leaves the inodes table alone, preserves
the invariants, and adds to the membership exactly the pairs `(f, t)` with
`t` in the list. -/
theorem add_tags_spec {f : Str} : ∀ (ts : List Str) (db : DB),
    TagsOk db → FTRefsOk db →
    TagsOk (db.add_tags_to_file ts f) ∧ FTRefsOk (db.add_tags_to_file ts f) ∧
    (db.add_tags_to_file ts f).inodes = db.inodes ∧
    (db.add_tags_to_file ts f).nextInodeId = db.nextInodeId ∧
    (∀ g t, HasTag (db.add_tags_to_file ts f) g t ↔ HasTag db g t ∨ (g = f ∧ t ∈ ts))
  | [], db, hok, hrefs => by
    refine ⟨hok, hrefs, rfl, rfl, ?_⟩
    intro g t
    simp [DB.add_tags_to_file]
  | t₀ :: ts, db, hok, hrefs => by
    cases htid : db.tag_id t₀ with
    | ok tid =>
      have hrow := tag_id_spec htid
      have hframe := insertFileTag_frame db f tid
      have hok1 : TagsOk (db.insertFileTag f tid) := by
        rw [TagsOk, hframe.1, hframe.2.2.1]
        exact hok
      have hrefs1 : FTRefsOk (db.insertFileTag f tid) :=
        insertFileTag_refs hrefs (by
          obtain ⟨r, hr, hid, _⟩ := hrow
          exact ⟨r, hr, hid⟩)
      obtain ⟨hok', hrefs', hinos', hnino', hchar'⟩ :=
        add_tags_spec (f := f) ts (db.insertFileTag f tid) hok1 hrefs1
      have hrun : db.add_tags_to_file (t₀ :: ts) f =
          (db.insertFileTag f tid).add_tags_to_file ts f := by
        rw [DB.add_tags_to_file, htid]
      rw [hrun]
      refine ⟨hok', hrefs', hinos'.trans hframe.2.1, hnino'.trans hframe.2.2.2, ?_⟩
      intro g t
      rw [hchar' g t, insertFileTag_hasTag hok hrow g t]
      simp only [List.mem_cons]
      tauto
    | error e =>
      have hnone : ∀ r ∈ db.tags, r.2 ≠ t₀ := by
        unfold DB.tag_id at htid
        cases hf : db.tags.find? (fun r => r.2 == t₀) with
        | none =>
          intro r hr hc
          have := List.find?_eq_none.mp hf r hr
          simp [hc] at this
        | some r => rw [hf] at htid; exact absurd htid (by simp)
      obtain ⟨hct, hokC, hrefsC, hcharC⟩ := create_tag_spec hok hrefs hnone
      have hrowC : ∃ r ∈ ({ db with tags := db.tags ++ [(db.nextTagId, t₀)], nextTagId := db.nextTagId + 1 } : DB).tags, r.1 = db.nextTagId ∧ r.2 = t₀ :=
        ⟨(db.nextTagId, t₀), List.mem_append_right _ (List.mem_singleton_self _), rfl, rfl⟩
      set dbC : DB := { db with tags := db.tags ++ [(db.nextTagId, t₀)], nextTagId := db.nextTagId + 1 } with hdbC
      have hframe := insertFileTag_frame dbC f db.nextTagId
      have hok1 : TagsOk (dbC.insertFileTag f db.nextTagId) := by
        rw [TagsOk, hframe.1, hframe.2.2.1]
        exact hokC
      have hrefs1 : FTRefsOk (dbC.insertFileTag f db.nextTagId) :=
        insertFileTag_refs hrefsC (by
          obtain ⟨r, hr, hid, _⟩ := hrowC
          exact ⟨r, hr, hid⟩)
      obtain ⟨hok', hrefs', hinos', hnino', hchar'⟩ :=
        add_tags_spec (f := f) ts (dbC.insertFileTag f db.nextTagId) hok1 hrefs1
      have hrun : db.add_tags_to_file (t₀ :: ts) f =
          (dbC.insertFileTag f db.nextTagId).add_tags_to_file ts f := by
        rw [DB.add_tags_to_file, htid, hct]
      rw [hrun]
      refine ⟨hok', hrefs', hinos'.trans hframe.2.1, hnino'.trans hframe.2.2.2, ?_⟩
      intro g t
      rw [hchar' g t, insertFileTag_hasTag hokC hrowC g t, hcharC g t]
      simp only [List.mem_cons]
      tauto

/-- `add_tags_to_file` keeps the membership table duplicate-free. -/
theorem add_tags_nodup {f : Str} : ∀ {ts : List Str} {db : DB},
    db.fileTags.Nodup → (db.add_tags_to_file ts f).fileTags.Nodup
  | [], _, h => h
  | t₀ :: ts, db, h => by
    cases htid : db.tag_id t₀ with
    | ok tid =>
      have hrun : db.add_tags_to_file (t₀ :: ts) f =
          (db.insertFileTag f tid).add_tags_to_file ts f := by
        rw [DB.add_tags_to_file, htid]
      rw [hrun]
      exact add_tags_nodup (insertFileTag_nodup h)
    | error e =>
      cases hct : db.create_tag t₀ with
      | ok r =>
        have hrun : db.add_tags_to_file (t₀ :: ts) f =
            (r.2.insertFileTag f r.1).add_tags_to_file ts f := by
          rw [DB.add_tags_to_file, htid, hct]
        have hfr : r.2.fileTags = db.fileTags := by
          unfold DB.create_tag at hct
          by_cases hany : db.tags.any (fun x => x.2 == t₀) = true
          · rw [if_pos hany] at hct; exact absurd hct (by simp)
          · rw [if_neg hany] at hct
            have h3 := Except.ok.inj hct
            rw [← h3]
        rw [hrun]
        exact add_tags_nodup (insertFileTag_nodup (hfr ▸ h))
      | error e2 =>
        have hrun : db.add_tags_to_file (t₀ :: ts) f =
            (db.insertFileTag f db.nextTagId).add_tags_to_file ts f := by
          rw [DB.add_tags_to_file, htid, hct]
        rw [hrun]
        exact add_tags_nodup (insertFileTag_nodup h)

-- ## Claim C6

theorem nodup_count_le_one {l : List (Str × Nat)} (h : l.Nodup) (a : Str × Nat) :
    l.count a ≤ 1 := by
  induction l with
  | nil => simp
  | cons x xs ih =>
    rcases List.nodup_cons.mp h with ⟨hx, hxs⟩
    rw [List.count_cons]
    by_cases hax : a = x
    · subst hax
      rw [List.count_eq_zero.mpr hx]
      simp
    · have hbeq : (x == a) = false := beq_eq_false_iff_ne.mpr (Ne.symm hax)
      rw [hbeq]
      simpa using ih hxs

/-- C6: Idempotence of membership insertion — after any sequence of
`add_tags_to_file` calls on a duplicate-free index, the membership table is
still duplicate-free, and in particular holds at most one row for any
`(file, tag_id)` pair. -/
theorem C6_membership_idempotent (db : DB) (ops : List (List Str × Str)) (f : Str) (tid : Nat)
    (h : db.fileTags.Nodup) :
    (ops.foldl (fun d op => d.add_tags_to_file op.1 op.2) db).fileTags.Nodup ∧
    (ops.foldl (fun d op => d.add_tags_to_file op.1 op.2) db).fileTags.count (f, tid) ≤ 1 := by
  have hnd : ∀ (l : List (List Str × Str)) (d : DB), d.fileTags.Nodup →
      (l.foldl (fun d op => d.add_tags_to_file op.1 op.2) d).fileTags.Nodup := by
    intro l
    induction l with
    | nil => intro d hd; exact hd
    | cons op l ih =>
      intro d hd
      exact ih _ (add_tags_nodup hd)
  refine ⟨hnd ops db h, ?_⟩
  exact nodup_count_le_one (hnd ops db h) (f, tid)

/-- C6 witness: inserting the same tag on the same file twice leaves one row. -/
theorem C6_membership_idempotent_witness :
    freshDB.fileTags.Nodup ∧
    (([([['a']], ['f']), ([['a']], ['f'])] : List (List Str × Str)).foldl
        (fun d op => d.add_tags_to_file op.1 op.2) freshDB).fileTags.Nodup ∧
    (([([['a']], ['f']), ([['a']], ['f'])] : List (List Str × Str)).foldl
        (fun d op => d.add_tags_to_file op.1 op.2) freshDB).fileTags.count (['f'], 1) ≤ 1 := by
  refine ⟨by decide, ?_⟩
  exact C6_membership_idempotent freshDB [([['a']], ['f']), ([['a']], ['f'])] ['f'] 1 (by decide)

-- ## Claim C2 (rename)

theorem tsSubset_iff {a b : List Str} : tsSubset a b = true ↔ ∀ x ∈ a, x ∈ b := by
  unfold tsSubset
  rw [List.all_eq_true]
  constructor
  · intro h x hx
    simpa using h x hx
  · intro h x hx
    simpa using h x hx

theorem mem_filter_not_contains {a : Str} {l1 l2 : List Str} :
    a ∈ l1.filter (fun t => !(l2.contains t)) ↔ a ∈ l1 ∧ a ∉ l2 := by
  rw [List.mem_filter]
  simp

/-- If a file has tag `t` (via the join), a tags row named `t` exists. -/
theorem hasTag_tags_row {db : DB} {f t : Str} (h : HasTag db f t) :
    ∃ r ∈ db.tags, r.2 = t := by
  obtain ⟨r, _, _, hname⟩ := h
  obtain ⟨tr, htr, _, hn⟩ := tagNameOf_spec hname
  exact ⟨tr, htr, hn⟩

/-- C2 (amended): for a file visible in the source directory of the rename
(`S ⊆ tags(f)`, which the kernel guarantees by only renaming listed files),
`rename(P, f, P', newname)` — `newname` ignored — succeeds, the backing
source is untouched, and afterwards the membership of `f` is exactly
`(tags(f) \ S) ∪ S'`.  Without `S ⊆ tags(f)` the code leaves tags of
`S ∩ S'` that `f` never had unset (see the counterexample). -/
theorem C2_rename_symmetric_diff (fs : FS) (parent : Nat) (name : Str)
    (newparent : Nat) (newname : Str) (S S' : List Str)
    (hok : TagsOk fs.db) (hrefs : FTRefsOk fs.db)
    (hp : fs.db.entry parent = .ok (.Tags S))
    (hq : fs.db.entry newparent = .ok (.Tags S'))
    (hvis : tsSubset S (fs.db.file_tags name) = true) :
    ∃ fs', TagsFs.renameF fs parent name newparent newname = (.ok (), fs') ∧
      fs'.source = fs.source ∧
      (∀ t, t ∈ fs'.db.file_tags name ↔
        (t ∈ fs.db.file_tags name ∧ t ∉ S) ∨ t ∈ S') := by
  have hS : ∀ t ∈ S, HasTag fs.db name t := by
    intro t ht
    exact mem_file_tags.mp (tsSubset_iff.mp hvis t ht)
  have hex : ∀ t ∈ S.filter (fun t => !(S'.contains t)), ∃ r ∈ fs.db.tags, r.2 = t := by
    intro t ht
    exact hasTag_tags_row (hS t (mem_filter_not_contains.mp ht).1)
  obtain ⟨db1, hrun1, htags1, hinos1, hntid1, hnino1, hsub1, hchar1⟩ :=
    remove_tags_spec (f := name) (S.filter (fun t => !(S'.contains t))) fs.db hok hex
  have hok1 : TagsOk db1 := by
    rw [TagsOk, htags1, hntid1]
    exact hok
  have hrefs1 : FTRefsOk db1 := by
    intro r hr
    obtain ⟨tr, htr, hid⟩ := hrefs r (hsub1 r hr)
    exact ⟨tr, htags1 ▸ htr, hid⟩
  obtain ⟨hok2, hrefs2, hinos2, hnino2, hchar2⟩ :=
    add_tags_spec (f := name) (S'.filter (fun t => !(S.contains t))) db1 hok1 hrefs1
  refine ⟨{ fs with db := db1.add_tags_to_file (S'.filter (fun t => !(S.contains t))) name }, ?_, rfl, ?_⟩
  · unfold TagsFs.renameF
    rw [hp, hq]
    simp only []
    rw [hrun1]
  · intro t
    rw [mem_file_tags, mem_file_tags, hchar2, hchar1]
    have hSA := hS t
    constructor
    · rintro (⟨hA, hno⟩ | ⟨_, hmem⟩)
      · by_cases hpS : t ∈ S
        · by_cases hqS : t ∈ S'
          · exact Or.inr hqS
          · exact absurd ⟨rfl, mem_filter_not_contains.mpr ⟨hpS, hqS⟩⟩ hno
        · exact Or.inl ⟨hA, hpS⟩
      · exact Or.inr (mem_filter_not_contains.mp hmem).1
    · rintro (⟨hA, hnS⟩ | hqS)
      · refine Or.inl ⟨hA, ?_⟩
        rintro ⟨_, hmem⟩
        exact hnS (mem_filter_not_contains.mp hmem).1
      · by_cases hpS : t ∈ S
        · refine Or.inl ⟨hSA hpS, ?_⟩
          rintro ⟨_, hmem⟩
          exact (mem_filter_not_contains.mp hmem).2 hqS
        · exact Or.inr ⟨rfl, mem_filter_not_contains.mpr ⟨hqS, hpS⟩⟩

/-- The index of the C2 counterexample: one tag `a`, the TagDir `{a}` at
inode 2, and no membership rows. -/
def dbX : DB := { tags := [(1, ['a'])], fileTags := [], inodes := [(1, discTags, []), (2, discTags, ['a'])], nextTagId := 2, nextInodeId := 3 }

def fsX : FS := { db := dbX, source := [{ name := ['f'], isFile := true, content := [] }] }

/-- C2 counterexample: renaming the untagged file `f` from TagDir({a}) to
TagDir({a}) succeeds but leaves its membership empty, while the claim's
`(tags(f) \ S) ∪ S'` contains `a` — the biconditional fails at `t = a`. -/
theorem C2_rename_counterexample :
    fsX.db.entry 2 = .ok (.Tags [['a']]) ∧
    (TagsFs.renameF fsX 2 ['f'] 2 ['g']).1 = .ok () ∧
    (TagsFs.renameF fsX 2 ['f'] 2 ['g']).2.db.file_tags ['f'] = [] ∧
    ¬((['a'] : Str) ∈ (TagsFs.renameF fsX 2 ['f'] 2 ['g']).2.db.file_tags ['f'] ↔
      ((['a'] : Str) ∈ fsX.db.file_tags ['f'] ∧ (['a'] : Str) ∉ ([['a']] : List Str)) ∨
        (['a'] : Str) ∈ ([['a']] : List Str)) := by
  decide

/-- C2 witness: the S4 scenario — file `a` tagged `{r, b}`, renamed from
TagDir({r}) to TagDir({b}). -/
def dbW : DB := { tags := [(1, ['r']), (2, ['b'])], fileTags := [(['a'], 1), (['a'], 2)], inodes := [(1, discTags, []), (2, discTags, ['r']), (3, discTags, ['b'])], nextTagId := 3, nextInodeId := 4 }

def fsW : FS := { db := dbW, source := [{ name := ['a'], isFile := true, content := [] }] }

theorem C2_rename_symmetric_diff_witness :
    TagsOk fsW.db ∧ FTRefsOk fsW.db ∧
    fsW.db.entry 2 = .ok (.Tags [['r']]) ∧
    fsW.db.entry 3 = .ok (.Tags [['b']]) ∧
    tsSubset [['r']] (fsW.db.file_tags ['a']) = true ∧
    (∃ fs', TagsFs.renameF fsW 2 ['a'] 3 ['x'] = (.ok (), fs') ∧
      fs'.source = fsW.source ∧
      (∀ t, t ∈ fs'.db.file_tags ['a'] ↔
        (t ∈ fsW.db.file_tags ['a'] ∧ t ∉ [['r']]) ∨ t ∈ [['b']])) := by
  refine ⟨by decide, by decide, by decide, by decide, by decide, ?_⟩
  exact C2_rename_symmetric_diff fsW 2 ['a'] 3 ['x'] [['r']] [['b']]
    (by decide) (by decide) (by decide) (by decide) (by decide)

-- ## Claim C4 (unlink)

/-- C4 (amended): unlink at the root (`S = ∅`) physically removes the backing
file but leaves the index — in particular `file_tags(name)` — untouched;
unlink in a non-empty TagDir(S) whose tags all exist keeps the backing source
untouched and strips exactly the tags of S from the file's membership. -/
theorem C4_unlink (fs : FS) (parent : Nat) (name : Str) (S : List Str) (sf : SrcFile)
    (hok : TagsOk fs.db)
    (hp : fs.db.entry parent = .ok (.Tags S)) :
    (S = [] → fs.source.find? (fun f => f.name == name) = some sf → sf.isFile = true →
      TagsFs.unlinkF fs parent name =
        (.ok (), { fs with source := fs.source.filter (fun f => !(f.name == name)) }) ∧
      (∀ g ∈ fs.source.filter (fun f => !(f.name == name)), g.name ≠ name) ∧
      ({ fs with source := fs.source.filter (fun f => !(f.name == name)) } : FS).db.file_tags name
        = fs.db.file_tags name) ∧
    (S ≠ [] → (∀ t ∈ S, ∃ r ∈ fs.db.tags, r.2 = t) →
      ∃ fs', TagsFs.unlinkF fs parent name = (.ok (), fs') ∧
        fs'.source = fs.source ∧
        (∀ t, t ∈ fs'.db.file_tags name ↔ t ∈ fs.db.file_tags name ∧ t ∉ S)) := by
  constructor
  · intro hS hfind hisf
    refine ⟨?_, ?_, rfl⟩
    · unfold TagsFs.unlinkF
      rw [hp]
      subst hS
      simp only []
      rw [hfind]
      simp only [hisf]
      rfl
    · intro g hg
      have := (List.mem_filter.mp hg).2
      simpa using this
  · intro hS hex
    obtain ⟨db', hrun, htags, hinos, hntid, hnino, hsub, hchar⟩ :=
      remove_tags_spec (f := name) S fs.db hok hex
    refine ⟨{ fs with db := db' }, ?_, rfl, ?_⟩
    · unfold TagsFs.unlinkF
      rw [hp]
      have hne : tsIsEmpty S = false := by
        cases S with
        | nil => exact absurd rfl hS
        | cons a l => rfl
      simp only [hne]
      rw [hrun]
      rfl
    · intro t
      rw [mem_file_tags, mem_file_tags, hchar name t]
      constructor
      · rintro ⟨h1, h2⟩
        exact ⟨h1, fun hc => h2 ⟨rfl, hc⟩⟩
      · rintro ⟨h1, h2⟩
        exact ⟨h1, fun hc => h2 hc.2⟩

/-- The C4 counterexample/witness state: one tag `a` assigned to the backing
file `f`, with the root inode row only. -/
def dbY : DB := { tags := [(1, ['a'])], fileTags := [(['f'], 1)], inodes := [(1, discTags, [])], nextTagId := 2, nextInodeId := 2 }

def fsY : FS := { db := dbY, source := [{ name := ['f'], isFile := true, content := [] }] }

/-- C4 counterexample: after `unlink(root, f)` the backing file is gone but
`file_tags(f)` is still `{a}`, not `∅` as the claim states. -/
theorem C4_unlink_counterexample :
    fsY.db.entry 1 = .ok (.Tags []) ∧
    (TagsFs.unlinkF fsY 1 ['f']).1 = .ok () ∧
    (TagsFs.unlinkF fsY 1 ['f']).2.source.find? (fun f => f.name == ['f']) = none ∧
    (TagsFs.unlinkF fsY 1 ['f']).2.db.file_tags ['f'] = [['a']] ∧
    ([['a']] : List Str) ≠ [] := by
  decide

/-- C4 witness: the root-unlink half evaluated on `fsY` (file removed, index
untouched). -/
theorem C4_unlink_witness :
    TagsOk fsY.db ∧ fsY.db.entry 1 = .ok (.Tags []) ∧
    (TagsFs.unlinkF fsY 1 ['f'] =
        (.ok (), { fsY with source := fsY.source.filter (fun f => !(f.name == ['f'])) }) ∧
      (∀ g ∈ fsY.source.filter (fun f => !(f.name == ['f'])), g.name ≠ ['f']) ∧
      ({ fsY with source := fsY.source.filter (fun f => !(f.name == ['f'])) } : FS).db.file_tags ['f']
        = fsY.db.file_tags ['f']) := by
  refine ⟨by decide, by decide, ?_⟩
  exact (C4_unlink fsY 1 ['f'] [] { name := ['f'], isFile := true, content := [] }
    (by decide) (by decide)).1 rfl (by decide) (by decide)

-- ## Claim C7 (rmdir)

theorem delete_tags_single_ok {db : DB} {name : Str} {tid : Nat}
    (htid : db.tag_id name = .ok tid) :
    db.delete_tags [name] = .ok { db with tags := db.tags.filter (fun r => !(r.1 == tid)), fileTags := db.fileTags.filter (fun r => !(r.2 == tid)) } := by
  unfold DB.delete_tags
  rw [htid]
  rfl

theorem delete_tags_single_err {db : DB} {name : Str} {e : Err}
    (htid : db.tag_id name = .error e) :
    db.delete_tags [name] = .error e := by
  unfold DB.delete_tags
  rw [htid]

/-- C7 (amended): rmdir deletes an existing tag globally — its tags row and
every membership row with its id — regardless of the parent inode named in
the call; for a non-existent tag the storage error is unwrapped, i.e. the
surface panics (leaving the state it returns unchanged) instead of replying
NoEntry. -/
theorem C7_rmdir (fs : FS) (parent parent' : Nat) (name : Str)
    (hok : TagsOk fs.db) :
    (∀ tid, fs.db.tag_id name = .ok tid →
      TagsFs.rmdirF fs parent name =
        (.ok (), { fs with db := { fs.db with tags := fs.db.tags.filter (fun r => !(r.1 == tid)), fileTags := fs.db.fileTags.filter (fun r => !(r.2 == tid)) } }) ∧
      (∀ r ∈ fs.db.tags.filter (fun r => !(r.1 == tid)), r.2 ≠ name) ∧
      (∀ r ∈ fs.db.fileTags.filter (fun r => !(r.2 == tid)), r.2 ≠ tid)) ∧
    TagsFs.rmdirF fs parent name = TagsFs.rmdirF fs parent' name ∧
    ((∀ r ∈ fs.db.tags, r.2 ≠ name) →
      TagsFs.rmdirF fs parent name = (.panic, fs) ∧
      TagsFs.rmdirF fs parent name ≠ (.error ENOENT, fs)) := by
  refine ⟨?_, rfl, ?_⟩
  · intro tid htid
    obtain ⟨r0, hr0, hid0, hn0⟩ := tag_id_spec htid
    refine ⟨?_, ?_, ?_⟩
    · unfold TagsFs.rmdirF
      rw [delete_tags_single_ok htid]
    · intro r hr hname
      rcases List.mem_filter.mp hr with ⟨hrm, hpred⟩
      have : r = r0 := tags_row_unique hok.2.2 hrm hr0 (hname.trans hn0.symm)
      subst this
      rw [hid0] at hpred
      simp at hpred
    · intro r hr
      have := (List.mem_filter.mp hr).2
      simpa using this
  · intro hnone
    have herr : fs.db.tag_id name = .error .database := tag_id_err_of_not_mem hnone
    have hdel : TagsFs.rmdirF fs parent name = (.panic, fs) := by
      unfold TagsFs.rmdirF
      rw [delete_tags_single_err herr]
    refine ⟨hdel, ?_⟩
    rw [hdel]
    simp

/-- C7 counterexample: deleting the unknown tag `x` on the one-tag index
panics (the source unwraps the storage error); it does not reply NoEntry. -/
theorem C7_rmdir_counterexample :
    (∀ r ∈ fsY.db.tags, r.2 ≠ (['x'] : Str)) ∧
    TagsFs.rmdirF fsY 1 ['x'] = (.panic, fsY) ∧
    TagsFs.rmdirF fsY 1 ['x'] ≠ (.error ENOENT, fsY) := by
  decide

/-- C7 witness: deleting the existing tag `a` succeeds and cascades, with the
parent inode irrelevant. -/
theorem C7_rmdir_witness :
    TagsOk fsY.db ∧ fsY.db.tag_id ['a'] = .ok 1 ∧
    (TagsFs.rmdirF fsY 1 ['a'] =
        (.ok (), { fsY with db := { fsY.db with tags := fsY.db.tags.filter (fun r => !(r.1 == 1)), fileTags := fsY.db.fileTags.filter (fun r => !(r.2 == 1)) } }) ∧
      (∀ r ∈ fsY.db.tags.filter (fun r => !(r.1 == 1)), r.2 ≠ ['a']) ∧
      (∀ r ∈ fsY.db.fileTags.filter (fun r => !(r.2 == 1)), r.2 ≠ 1)) ∧
    TagsFs.rmdirF fsY 1 ['a'] = TagsFs.rmdirF fsY 7 ['a'] := by
  refine ⟨by decide, by decide, ?_, ?_⟩
  · exact (C7_rmdir fsY 1 7 ['a'] (by decide)).1 1 (by decide)
  · exact (C7_rmdir fsY 1 7 ['a'] (by decide)).2.1

-- ## Claim C5 (lookup, file probe)

/-- C5 (amended): for a TagDir parent and a name present on the backing
source, the file probe *fetches* the `Entry::File(name)` inode.  When the
row exists: membership ⊇ S replies that inode, membership ⊉ S replies
NoEntry.  When the row does not exist, the `?` propagates the storage error
and the handler replies ENODEV — no inode row is created (the claim's
"inode-or-create" does not happen here), and the tag probe is never reached
(the state is returned unchanged in every case). -/
theorem C5_lookup_file_probe (fs : FS) (parent : Nat) (name : Str) (S : List Str)
    (hp : fs.db.entry parent = .ok (.Tags S))
    (hex : srcExists fs name = true) :
    (∀ ino, fs.db.inode (.File name) = .ok ino →
      (tsSubset S (fs.db.file_tags name) = true →
        TagsFs.lookupF fs parent name = (.ok ino, fs)) ∧
      (tsSubset S (fs.db.file_tags name) = false →
        TagsFs.lookupF fs parent name = (.error ENOENT, fs))) ∧
    (∀ e, fs.db.inode (.File name) = .error e →
      TagsFs.lookupF fs parent name = (.error ENODEV, fs)) := by
  constructor
  · intro ino hino
    constructor
    · intro hsub
      unfold TagsFs.lookupF TagsFs.lookup
      rw [hp]
      simp only [hex, if_true]
      rw [hino]
      simp only [hsub, if_true]
    · intro hsub
      unfold TagsFs.lookupF TagsFs.lookup
      rw [hp]
      simp only [hex, if_true]
      rw [hino]
      simp only [hsub]
      rfl
  · intro e he
    have : e = .database := by
      unfold DB.inode at he
      cases hf : fs.db.inodes.find? (fun r =>
          r.2.1 == (Entry.discrimimant_data (.File name)).1 &&
          r.2.2 == (Entry.discrimimant_data (.File name)).2) with
      | some r => rw [hf] at he; exact absurd he (by simp)
      | none =>
        rw [hf] at he
        simpa using he.symm
    subst this
    unfold TagsFs.lookupF TagsFs.lookup
    rw [hp]
    simp only [hex, if_true]
    rw [he]

/-- A source with one untagged regular file `f` over a fresh index. -/
def fs0 : FS := { db := freshDB, source := [{ name := ['f'], isFile := true, content := [] }] }

/-- C5 counterexample: `source/f` exists, `file_tags(f) ⊇ ∅`, yet
`lookup(root, f)` replies ENODEV (the fetched inode is missing and nothing
is created) instead of succeeding with a fresh canonical inode. -/
theorem C5_lookup_counterexample :
    fs0.db.entry 1 = .ok (.Tags []) ∧
    srcIsFile fs0 ['f'] = true ∧
    tsSubset [] (fs0.db.file_tags ['f']) = true ∧
    TagsFs.lookupF fs0 1 ['f'] = (.error ENODEV, fs0) ∧
    (TagsFs.lookupF fs0 1 ['f']).2.db.inodes = fs0.db.inodes := by
  decide

/-- The index with the `Entry::File(f)` row already present. -/
def dbZ : DB := { tags := [], fileTags := [], inodes := [(1, discTags, []), (2, discFile, ['f'])], nextTagId := 1, nextInodeId := 3 }

def fsZ : FS := { db := dbZ, source := [{ name := ['f'], isFile := true, content := [] }] }

/-- C5 witness: with the inode row present, `lookup(root, f)` replies that
inode and leaves the state untouched. -/
theorem C5_lookup_file_probe_witness :
    fsZ.db.entry 1 = .ok (.Tags []) ∧ srcExists fsZ ['f'] = true ∧
    fsZ.db.inode (.File ['f']) = .ok 2 ∧
    tsSubset [] (fsZ.db.file_tags ['f']) = true ∧
    TagsFs.lookupF fsZ 1 ['f'] = (.ok 2, fsZ) := by
  refine ⟨by decide, by decide, by decide, by decide, ?_⟩
  exact ((C5_lookup_file_probe fsZ 1 ['f'] [] (by decide) (by decide)).1 2 (by decide)).1 (by decide)

-- ## Claim C9 (mkdir)

/-- C9: mkdir inserts a tags-table row and replies with the *tags-table*
rowid as the attribute's ino; no inodes-table row is created, so on some
index states the replied number collides with the inode of an unrelated
existing Entry. -/
theorem C9_mkdir (fs : FS) (parent : Nat) (name : Str)
    (hnew : ∀ r ∈ fs.db.tags, r.2 ≠ name) :
    (TagsFs.mkdirF fs parent name =
      (.ok fs.db.nextTagId,
        { fs with db := { fs.db with tags := fs.db.tags ++ [(fs.db.nextTagId, name)], nextTagId := fs.db.nextTagId + 1 } }) ∧
      (TagsFs.mkdirF fs parent name).2.db.inodes = fs.db.inodes) ∧
    (∃ fsE p n i e, (TagsFs.mkdirF fsE p n).1 = Reply.ok i ∧
      (TagsFs.mkdirF fsE p n).2.db.entry i = .ok e ∧ e ≠ .Tags [n]) := by
  have hany : fs.db.tags.any (fun r => r.2 == name) = false := by
    rw [Bool.eq_false_iff]
    intro hc
    obtain ⟨r, hr, hb⟩ := List.any_eq_true.mp hc
    exact hnew r hr (beq_iff_eq.mp hb)
  have hct : fs.db.create_tag name = .ok (fs.db.nextTagId,
      { fs.db with tags := fs.db.tags ++ [(fs.db.nextTagId, name)], nextTagId := fs.db.nextTagId + 1 }) := by
    unfold DB.create_tag
    rw [hany]
    simp
  have hrun : TagsFs.mkdirF fs parent name =
      (.ok fs.db.nextTagId,
        { fs with db := { fs.db with tags := fs.db.tags ++ [(fs.db.nextTagId, name)], nextTagId := fs.db.nextTagId + 1 } }) := by
    unfold TagsFs.mkdirF
    rw [hct]
  refine ⟨⟨hrun, by rw [hrun]⟩, ?_⟩
  refine ⟨{ db := { tags := [(1, ['a'])], fileTags := [], inodes := [(1, discTags, []), (2, discFile, ['b'])], nextTagId := 2, nextInodeId := 3 }, source := [] }, 1, ['c'], 2, .File ['b'], ?_, ?_, ?_⟩
  · decide
  · decide
  · decide

/-- C9 witness: creating tag `c` on `fsY` replies the tags rowid 2 and
leaves the inodes table alone. -/
theorem C9_mkdir_witness :
    (∀ r ∈ fsY.db.tags, r.2 ≠ (['c'] : Str)) ∧
    (TagsFs.mkdirF fsY 1 ['c'] =
      (.ok fsY.db.nextTagId,
        { fsY with db := { fsY.db with tags := fsY.db.tags ++ [(fsY.db.nextTagId, ['c'])], nextTagId := fsY.db.nextTagId + 1 } }) ∧
      (TagsFs.mkdirF fsY 1 ['c']).2.db.inodes = fsY.db.inodes) := by
  refine ⟨by decide, ?_⟩
  exact (C9_mkdir fsY 1 ['c'] (by decide)).1

-- ## Claim C10 (create with a non-TagDir parent)

/-- C10: `create(parent, name, mode, umask)` does not require the parent to
be a TagDir.  When `entry(parent)` fails or resolves to a File, the backing
file is still created (empty), its `Entry::File(name)` inode is still
allocated via inode-or-create, no membership rows are added, and the call
succeeds. -/
theorem C10_create_parent_not_tagdir (fs : FS) (parent : Nat) (name : Str) (mode umask : Nat)
    (habsent : fs.source.find? (fun f => f.name == name) = none)
    (hbad : (∃ e, fs.db.entry parent = .error e) ∨ (∃ n, fs.db.entry parent = .ok (.File n)))
    (hok : InoIdsOk fs.db) :
    ∃ ino fs', TagsFs.createF fs parent name mode umask = (.ok ino, fs') ∧
      fs'.source = fs.source ++ [{ name := name, isFile := true, content := [] }] ∧
      fs'.db.entry ino = .ok (.File name) ∧
      fs'.db.fileTags = fs.db.fileTags := by
  have hnof : srcIsFile fs name = false := by
    rw [Bool.eq_false_iff]
    intro hc
    obtain ⟨sf, hsf, hb⟩ := List.any_eq_true.mp hc
    have hn : sf.name = name := beq_iff_eq.mp ((Bool.and_eq_true _ _).mp hb).1
    have := List.find?_eq_none.mp habsent sf hsf
    simp [hn] at this
  -- the parent still does not resolve to a TagDir after the inode allocation
  have hbad' : (∃ e, (fs.db.inode_or_create (.File name)).2.entry parent = .error e) ∨
      (∃ n, (fs.db.inode_or_create (.File name)).2.entry parent = .ok (.File n)) := by
    unfold DB.inode_or_create
    cases hio : fs.db.inode (.File name) with
    | ok i => exact hbad
    | error err =>
      cases hfp : fs.db.inodes.find? (fun r => r.1 == parent) with
      | some r =>
        have hsame : (fs.db.create_inode (.File name)).2.entry parent = fs.db.entry parent := by
          have hfind : ((fs.db.create_inode (.File name)).2).inodes.find?
              (fun r => r.1 == parent) = some r := by
            show (fs.db.inodes ++ [(fs.db.nextInodeId, Entry.discrimimant_data (.File name))]).find? _ = _
            exact find?_append_some hfp
          rw [entry_of_find hfind, entry_of_find hfp]
        simp only
        rw [hsame]
        exact hbad
      | none =>
        have hfind : ((fs.db.create_inode (.File name)).2).inodes.find?
            (fun r => r.1 == parent) =
            [(fs.db.nextInodeId, Entry.discrimimant_data (.File name))].find?
              (fun r => r.1 == parent) := by
          show (fs.db.inodes ++ [(fs.db.nextInodeId, Entry.discrimimant_data (.File name))]).find? _ = _
          exact find?_append_none hfp
        simp only
        cases hf1 : [(fs.db.nextInodeId, Entry.discrimimant_data (.File name))].find?
            (fun r => r.1 == parent) with
        | none =>
          left
          refine ⟨.database, ?_⟩
          unfold DB.entry
          rw [hfind, hf1]
        | some r1 =>
          right
          have : r1 = (fs.db.nextInodeId, Entry.discrimimant_data (.File name)) := by
            have := List.mem_of_find?_eq_some hf1
            simpa using this
          subst this
          refine ⟨name, ?_⟩
          rw [entry_of_find (hfind.trans hf1)]
          simp [Entry.discrimimant_data, discFile_ne_discTags]
  have hframe := inode_or_create_frame fs.db (.File name)
  have hroundtrip := inode_or_create_entry (e := .File name) hok trivial
  -- the tag set added to the new file is empty
  have htags0 : (match (fs.db.inode_or_create (.File name)).2.entry parent with
      | .ok (.Tags tags) => tags
      | _ => ([] : List Str)) = [] := by
    rcases hbad' with ⟨e, he⟩ | ⟨n, hn⟩
    · rw [he]
    · rw [hn]
  refine ⟨(fs.db.inode_or_create (.File name)).1,
    { db := (fs.db.inode_or_create (.File name)).2.add_tags_to_file [] name,
      source := fs.source ++ [{ name := name, isFile := true, content := [] }] }, ?_, rfl, ?_, ?_⟩
  · unfold TagsFs.createF
    rw [hnof]
    simp only [Bool.false_eq_true, if_false]
    rw [habsent]
    simp only
    rw [htags0]
  · exact hroundtrip
  · show ((fs.db.inode_or_create (.File name)).2.add_tags_to_file [] name).fileTags = _
    exact hframe.1.2.1

/-- C10 witness: creating `g` under the unknown parent inode 5 on a fresh
index still creates the backing file and its inode, with no tags added. -/
theorem C10_create_parent_not_tagdir_witness :
    (fs0.source.find? (fun f => f.name == ['g']) = none) ∧
    ((∃ e, fs0.db.entry 5 = .error e) ∨ (∃ n, fs0.db.entry 5 = .ok (.File n))) ∧
    InoIdsOk fs0.db ∧
    (∃ ino fs', TagsFs.createF fs0 5 ['g'] 420 18 = (.ok ino, fs') ∧
      fs'.source = fs0.source ++ [{ name := ['g'], isFile := true, content := [] }] ∧
      fs'.db.entry ino = .ok (.File ['g']) ∧
      fs'.db.fileTags = fs0.db.fileTags) := by
  refine ⟨by decide, Or.inl ⟨.database, by decide⟩, by decide, ?_⟩
  exact C10_create_parent_not_tagdir fs0 5 ['g'] 420 18 (by decide)
    (Or.inl ⟨.database, by decide⟩) (by decide)

-- ## readdir: phase characterizations

theorem file_tags_congr {db db' : DB} (ht : db'.tags = db.tags)
    (hf : db'.fileTags = db.fileTags) (f : Str) :
    db'.file_tags f = db.file_tags f := by
  unfold DB.file_tags DB.tagNameOf
  rw [ht, hf]

theorem sub_tags_congr {db db' : DB} (ht : db'.tags = db.tags) (S : List Str) :
    db'.sub_tags S = db.sub_tags S := by
  unfold DB.sub_tags
  rw [ht]

/-- Membership in `sub_tags S`: exactly the tags-table names outside `S`. -/
theorem mem_sub_tags {db : DB} {S : List Str} {t : Str} :
    t ∈ db.sub_tags S ↔ (∃ r ∈ db.tags, r.2 = t) ∧ t ∉ S := by
  unfold DB.sub_tags
  rw [List.mem_map]
  constructor
  · rintro ⟨r, hr, rfl⟩
    rcases List.mem_filter.mp hr with ⟨hrm, hpred⟩
    exact ⟨⟨r, hrm, rfl⟩, by simpa using hpred⟩
  · rintro ⟨⟨r, hrm, rfl⟩, hnot⟩
    refine ⟨r, List.mem_filter.mpr ⟨hrm, by simpa using hnot⟩, rfl⟩

/-- Phase B of readdir, characterized: continues the cookie past every tag,
creates (at most) the singleton-TagDir inode rows, and emits one Directory
entry per tag in order, each resolving to its singleton TagDir. -/
theorem readdirTags_spec (offset : Int) (ts : List Str) :
    ∀ (cur : Int) (db : DB) (acc : List DirEntry),
    offset ≤ cur → InoIdsOk db → (∀ t ∈ ts, ValidTag t) →
    ∀ cur2 db' out, readdirTags offset ts cur db acc = (cur2, db', out) →
    InoIdsOk db' ∧ db'.tags = db.tags ∧ db'.fileTags = db.fileTags ∧
    (∃ l, db'.inodes = db.inodes ++ l ∧
      ∀ r ∈ l, ∃ t ∈ ts, r.2 = Entry.discrimimant_data (.Tags [t])) ∧
    (∃ new, out = acc ++ new ∧
      new.map (fun d => (d.kind, d.name)) = ts.map (fun t => (FType.Directory, t)) ∧
      ∀ d ∈ new, db'.entry d.ino = .ok (.Tags [d.name])) := by
  induction ts with
  | nil =>
    intro cur db acc hoff hok hval cur2 db' out hrw
    unfold readdirTags at hrw
    simp only [Prod.mk.injEq] at hrw
    obtain ⟨rfl, rfl, rfl⟩ := hrw
    exact ⟨hok, rfl, rfl, ⟨[], by simp⟩, ⟨[], by simp⟩⟩
  | cons t ts ih =>
    intro cur db acc hoff hok hval cur2 db' out hrw
    unfold readdirTags at hrw
    rw [if_neg (by omega)] at hrw
    simp only [] at hrw
    have hvt : EntryValid (.Tags [t]) := by
      refine ⟨List.chain'_singleton _, ?_⟩
      intro x hx
      rw [List.mem_singleton] at hx
      exact hx.symm ▸ hval t (List.mem_cons_self _ _)
    have hok1 : InoIdsOk (db.inode_or_create (.Tags [t])).2 :=
      inode_or_create_inoIdsOk _ hok
    have hval1 : ∀ x ∈ ts, ValidTag x := fun x hx => hval x (List.mem_cons_of_mem _ hx)
    obtain ⟨hok', htags', hft', ⟨l1, hl1, hl1r⟩, ⟨new, hout, hmap, hres⟩⟩ :=
      ih (cur + 1) (db.inode_or_create (.Tags [t])).2
        (acc ++ [⟨(db.inode_or_create (.Tags [t])).1, cur + 1, .Directory, t⟩])
        (by omega) hok1 hval1 cur2 db' out hrw
    have hframe := inode_or_create_frame db (.Tags [t])
    obtain ⟨⟨hftags, hffile, _⟩, l0, hl0, hl0r, _⟩ := hframe
    refine ⟨hok', htags'.trans hftags, hft'.trans hffile, ?_, ?_⟩
    · refine ⟨l0 ++ l1, by rw [hl1, hl0, List.append_assoc], ?_⟩
      intro r hr
      rcases List.mem_append.mp hr with h | h
      · exact ⟨t, List.mem_cons_self _ _, (hl0r r h).2⟩
      · obtain ⟨t', ht', hr2⟩ := hl1r r h
        exact ⟨t', List.mem_cons_of_mem _ ht', hr2⟩
    · refine ⟨⟨(db.inode_or_create (.Tags [t])).1, cur + 1, .Directory, t⟩ :: new,
        by rw [hout, List.append_assoc]; rfl, ?_, ?_⟩
      · simp only [List.map_cons, hmap]
      · intro d hd
        rcases List.mem_cons.mp hd with h | h
        · subst h
          exact entry_extend (inode_or_create_entry hok hvt) ⟨l1, hl1⟩
        · exact hres d h

/-- `inode_or_create` leaves (or creates) a row keyed by the entry's
(discriminant, data). -/
theorem inode_or_create_row (db : DB) (e : Entry) :
    ∃ r ∈ (db.inode_or_create e).2.inodes, r.2 = e.discrimimant_data := by
  unfold DB.inode_or_create
  cases hio : db.inode e with
  | ok i =>
    unfold DB.inode at hio
    cases hf : db.inodes.find? (fun r =>
        r.2.1 == (e.discrimimant_data).1 && r.2.2 == (e.discrimimant_data).2) with
    | none => rw [hf] at hio; exact absurd hio (by simp)
    | some r =>
      have hp := List.find?_some (p := fun (r : Nat × Str × Str) =>
        r.2.1 == (e.discrimimant_data).1 && r.2.2 == (e.discrimimant_data).2) hf
      refine ⟨r, List.mem_of_find?_eq_some hf, ?_⟩
      have h1 := eq_of_beq ((Bool.and_eq_true _ _).mp hp).1
      have h2 := eq_of_beq ((Bool.and_eq_true _ _).mp hp).2
      exact Prod.ext h1 h2
  | error err =>
    exact ⟨(db.nextInodeId, e.discrimimant_data),
      List.mem_append_right _ (List.mem_singleton_self _), rfl⟩

/-- Phase A of readdir, characterized (no skipping when the offset is at or
below the running cookie): every source entry — regular or not — whose tags
are a superset of the directory's gets an `Entry::File` inode row, and
exactly the qualifying regular files are emitted, in source order. -/
theorem readdirFiles_spec (tags : List Str) (offset : Int) (src : List SrcFile) :
    ∀ (cur : Int) (db : DB) (acc : List DirEntry),
    offset ≤ cur → InoIdsOk db →
    ∀ cur2 db' out, readdirFiles tags offset src cur db acc = (cur2, db', out) →
    cur ≤ cur2 ∧ InoIdsOk db' ∧ db'.tags = db.tags ∧ db'.fileTags = db.fileTags ∧
    (∃ l, db'.inodes = db.inodes ++ l ∧
      ∀ r ∈ l, ∃ sf ∈ src, tsSubset tags (db.file_tags sf.name) = true ∧
        r.2 = Entry.discrimimant_data (.File sf.name)) ∧
    (∀ sf ∈ src, tsSubset tags (db.file_tags sf.name) = true →
      ∃ r ∈ db'.inodes, r.2 = Entry.discrimimant_data (.File sf.name)) ∧
    (∃ new, out = acc ++ new ∧
      new.map (fun d => (d.kind, d.name)) =
        (src.filter (fun sf => sf.isFile && tsSubset tags (db.file_tags sf.name))).map
          (fun sf => (FType.RegularFile, sf.name)) ∧
      ∀ d ∈ new, db'.entry d.ino = .ok (.File d.name)) := by
  induction src with
  | nil =>
    intro cur db acc hoff hok cur2 db' out hrw
    unfold readdirFiles at hrw
    simp only [Prod.mk.injEq] at hrw
    obtain ⟨rfl, rfl, rfl⟩ := hrw
    exact ⟨le_refl _, hok, rfl, rfl, ⟨[], by simp⟩, by simp, ⟨[], by simp⟩⟩
  | cons sf rest ih =>
    intro cur db acc hoff hok cur2 db' out hrw
    unfold readdirFiles at hrw
    rw [if_neg (by omega)] at hrw
    by_cases hsub : tsSubset tags (db.file_tags sf.name) = true
    · rw [hsub] at hrw
      simp only [Bool.not_true, Bool.false_eq_true, if_false] at hrw
      have hframe := inode_or_create_frame db (.File sf.name)
      obtain ⟨⟨hftags, hffile, _⟩, l0, hl0, hl0r, _⟩ := hframe
      have hok1 : InoIdsOk (db.inode_or_create (.File sf.name)).2 :=
        inode_or_create_inoIdsOk _ hok
      have hfteq : ∀ f, (db.inode_or_create (.File sf.name)).2.file_tags f = db.file_tags f :=
        file_tags_congr hftags hffile
      by_cases hisf : sf.isFile = true
      · rw [hisf] at hrw
        simp only [if_true] at hrw
        obtain ⟨hcur2, hok', htags', hft', ⟨l1, hl1, hl1r⟩, hrows, ⟨new, hout, hmap, hres⟩⟩ :=
          ih (cur + 1) (db.inode_or_create (.File sf.name)).2
            (acc ++ [⟨(db.inode_or_create (.File sf.name)).1, cur + 1, .RegularFile, sf.name⟩])
            (by omega) hok1 cur2 db' out hrw
        simp only [hfteq] at hl1r hrows hmap
        refine ⟨by omega, hok', htags'.trans hftags, hft'.trans hffile, ?_, ?_, ?_⟩
        · refine ⟨l0 ++ l1, by rw [hl1, hl0, List.append_assoc], ?_⟩
          intro r hr
          rcases List.mem_append.mp hr with h | h
          · exact ⟨sf, List.mem_cons_self _ _, hsub, (hl0r r h).2⟩
          · obtain ⟨sf', hsf', hq, hr2⟩ := hl1r r h
            exact ⟨sf', List.mem_cons_of_mem _ hsf', hq, hr2⟩
        · intro sf' hsf' hq
          rcases List.mem_cons.mp hsf' with h | h
          · obtain ⟨r, hrm, hrk⟩ := inode_or_create_row db (.File sf.name)
            refine ⟨r, ?_, by rw [hrk, h]⟩
            rw [hl1]
            exact List.mem_append_left _ hrm
          · exact hrows sf' h hq
        · refine ⟨⟨(db.inode_or_create (.File sf.name)).1, cur + 1, .RegularFile, sf.name⟩ :: new,
            by rw [hout, List.append_assoc]; rfl, ?_, ?_⟩
          · rw [List.filter_cons]
            simp only [hisf, hsub, Bool.and_self, if_true, List.map_cons]
            rw [hmap]
          · intro d hd
            rcases List.mem_cons.mp hd with h | h
            · subst h
              exact entry_extend (inode_or_create_entry hok trivial) ⟨l1, hl1⟩
            · exact hres d h
      · rw [Bool.eq_false_iff.mpr hisf] at hrw
        simp only [Bool.false_eq_true, if_false] at hrw
        obtain ⟨hcur2, hok', htags', hft', ⟨l1, hl1, hl1r⟩, hrows, ⟨new, hout, hmap, hres⟩⟩ :=
          ih (cur + 1) (db.inode_or_create (.File sf.name)).2 acc
            (by omega) hok1 cur2 db' out hrw
        simp only [hfteq] at hl1r hrows hmap
        refine ⟨by omega, hok', htags'.trans hftags, hft'.trans hffile, ?_, ?_, ?_⟩
        · refine ⟨l0 ++ l1, by rw [hl1, hl0, List.append_assoc], ?_⟩
          intro r hr
          rcases List.mem_append.mp hr with h | h
          · exact ⟨sf, List.mem_cons_self _ _, hsub, (hl0r r h).2⟩
          · obtain ⟨sf', hsf', hq, hr2⟩ := hl1r r h
            exact ⟨sf', List.mem_cons_of_mem _ hsf', hq, hr2⟩
        · intro sf' hsf' hq
          rcases List.mem_cons.mp hsf' with h | h
          · obtain ⟨r, hrm, hrk⟩ := inode_or_create_row db (.File sf.name)
            refine ⟨r, ?_, by rw [hrk, h]⟩
            rw [hl1]
            exact List.mem_append_left _ hrm
          · exact hrows sf' h hq
        · refine ⟨new, hout, ?_, hres⟩
          rw [List.filter_cons]
          simp only [Bool.eq_false_iff.mpr hisf, Bool.false_and, Bool.false_eq_true, if_false]
          exact hmap
    · have hsubf : tsSubset tags (db.file_tags sf.name) = false := Bool.eq_false_iff.mpr hsub
      rw [hsubf] at hrw
      simp only [Bool.not_false, if_true] at hrw
      obtain ⟨hcur2, hok', htags', hft', ⟨l1, hl1, hl1r⟩, hrows, ⟨new, hout, hmap, hres⟩⟩ :=
        ih (cur + 1) db acc (by omega) hok cur2 db' out hrw
      refine ⟨by omega, hok', htags', hft', ⟨l1, hl1, ?_⟩, ?_, ?_⟩
      · intro r hr
        obtain ⟨sf', hsf', hq, hr2⟩ := hl1r r hr
        exact ⟨sf', List.mem_cons_of_mem _ hsf', hq, hr2⟩
      · intro sf' hsf' hq
        rcases List.mem_cons.mp hsf' with h | h
        · rw [h] at hq
          exact absurd hq (by rw [hsubf]; simp)
        · exact hrows sf' h hq
      · refine ⟨new, hout, ?_, hres⟩
        rw [List.filter_cons]
        simp only [hsubf, Bool.and_false, Bool.false_eq_true, if_false]
        exact hmap

/-- The combined two-phase outcome of `readdir` at offset 0 on a TagDir:
used by the projection and frame-effect claims. -/
theorem readdirF_zero_spec (fs : FS) (ino : Nat) (S : List Str)
    (hino : InoIdsOk fs.db)
    (hp : fs.db.entry ino = .ok (.Tags S))
    (hvalid : ∀ r ∈ fs.db.tags, ValidTag r.2) :
    ∃ A B lA lB db2,
      TagsFs.readdirF fs ino 0 = (.ok (A ++ B), { fs with db := db2 }) ∧
      db2.inodes = fs.db.inodes ++ lA ++ lB ∧
      (∀ r ∈ lA, ∃ sf ∈ fs.source, tsSubset S (fs.db.file_tags sf.name) = true ∧
        r.2 = Entry.discrimimant_data (.File sf.name)) ∧
      (∀ r ∈ lB, ∃ t ∈ fs.db.sub_tags S, r.2 = Entry.discrimimant_data (.Tags [t])) ∧
      (∀ sf ∈ fs.source, tsSubset S (fs.db.file_tags sf.name) = true →
        ∃ r ∈ db2.inodes, r.2 = Entry.discrimimant_data (.File sf.name)) ∧
      A.map (fun d => (d.kind, d.name)) =
        (fs.source.filter (fun sf => sf.isFile && tsSubset S (fs.db.file_tags sf.name))).map
          (fun sf => (FType.RegularFile, sf.name)) ∧
      (∀ d ∈ A, db2.entry d.ino = .ok (.File d.name)) ∧
      B.map (fun d => (d.kind, d.name)) = (fs.db.sub_tags S).map (fun t => (FType.Directory, t)) ∧
      (∀ d ∈ B, db2.entry d.ino = .ok (.Tags [d.name])) := by
  obtain ⟨hcur, hokA, htagsA, hftA, ⟨lA, hlA, hlAr⟩, hrows, ⟨newA, houtA, hmapA, hresA⟩⟩ :=
    readdirFiles_spec S 0 fs.source 0 fs.db [] (le_refl 0) hino
      (readdirFiles S 0 fs.source 0 fs.db []).1
      (readdirFiles S 0 fs.source 0 fs.db []).2.1
      (readdirFiles S 0 fs.source 0 fs.db []).2.2 rfl
  have hsubB : (readdirFiles S 0 fs.source 0 fs.db []).2.1.sub_tags S = fs.db.sub_tags S :=
    sub_tags_congr htagsA S
  have hvalB : ∀ t ∈ (readdirFiles S 0 fs.source 0 fs.db []).2.1.sub_tags S, ValidTag t := by
    rw [hsubB]
    intro t ht
    obtain ⟨⟨r, hr, hrn⟩, _⟩ := mem_sub_tags.mp ht
    exact hrn ▸ hvalid r hr
  obtain ⟨hokB, htagsB, hftB, ⟨lB, hlB, hlBr⟩, ⟨newB, houtB, hmapB, hresB⟩⟩ :=
    readdirTags_spec 0 ((readdirFiles S 0 fs.source 0 fs.db []).2.1.sub_tags S)
      (readdirFiles S 0 fs.source 0 fs.db []).1
      (readdirFiles S 0 fs.source 0 fs.db []).2.1
      (readdirFiles S 0 fs.source 0 fs.db []).2.2
      (by omega) hokA hvalB
      (readdirTags 0 ((readdirFiles S 0 fs.source 0 fs.db []).2.1.sub_tags S)
        (readdirFiles S 0 fs.source 0 fs.db []).1
        (readdirFiles S 0 fs.source 0 fs.db []).2.1
        (readdirFiles S 0 fs.source 0 fs.db []).2.2).1
      (readdirTags 0 ((readdirFiles S 0 fs.source 0 fs.db []).2.1.sub_tags S)
        (readdirFiles S 0 fs.source 0 fs.db []).1
        (readdirFiles S 0 fs.source 0 fs.db []).2.1
        (readdirFiles S 0 fs.source 0 fs.db []).2.2).2.1
      (readdirTags 0 ((readdirFiles S 0 fs.source 0 fs.db []).2.1.sub_tags S)
        (readdirFiles S 0 fs.source 0 fs.db []).1
        (readdirFiles S 0 fs.source 0 fs.db []).2.1
        (readdirFiles S 0 fs.source 0 fs.db []).2.2).2.2 rfl
  rw [List.nil_append] at houtA
  simp only [hsubB] at hlBr hmapB
  refine ⟨newA, newB, lA, lB, _, ?_, ?_, ?_, ?_, ?_, hmapA, ?_, hmapB, hresB⟩
  · unfold TagsFs.readdirF
    rw [hp]
    simp only []
    rw [houtB, houtA]
  · rw [hlB, hlA]
  · exact hlAr
  · exact hlBr
  · intro sf hsf hq
    obtain ⟨r, hrm, hrk⟩ := hrows sf hsf hq
    refine ⟨r, ?_, hrk⟩
    rw [hlB]
    exact List.mem_append_left _ hrm
  · intro d hd
    exact entry_extend (hresA d (houtA ▸ hd)) ⟨lB, hlB⟩

-- ## Claim C3 (readdir projection)

/-- C3: readdir of TagDir(S) at offset 0 emits exactly the regular source
files with tags ⊇ S, as RegularFile entries whose inodes resolve to
`Entry::File(f)`, followed by one Directory entry per tag-table tag outside
S — each carrying the inode of the *singleton* TagDir({t}). -/
theorem C3_readdir_projection (fs : FS) (ino : Nat) (S : List Str)
    (hino : InoIdsOk fs.db)
    (hp : fs.db.entry ino = .ok (.Tags S))
    (hvalid : ∀ r ∈ fs.db.tags, ValidTag r.2) :
    ∃ A B fs', TagsFs.readdirF fs ino 0 = (.ok (A ++ B), fs') ∧
      A.map (fun d => (d.kind, d.name)) =
        (fs.source.filter (fun sf => sf.isFile && tsSubset S (fs.db.file_tags sf.name))).map
          (fun sf => (FType.RegularFile, sf.name)) ∧
      (∀ d ∈ A, fs'.db.entry d.ino = .ok (.File d.name)) ∧
      B.map (fun d => (d.kind, d.name)) =
        (fs.db.sub_tags S).map (fun t => (FType.Directory, t)) ∧
      (∀ d ∈ B, fs'.db.entry d.ino = .ok (.Tags [d.name])) ∧
      (∀ t, t ∈ fs.db.sub_tags S ↔ (∃ r ∈ fs.db.tags, r.2 = t) ∧ t ∉ S) := by
  obtain ⟨A, B, lA, lB, db2, hrun, _, _, _, _, hmapA, hresA, hmapB, hresB⟩ :=
    readdirF_zero_spec fs ino S hino hp hvalid
  exact ⟨A, B, { fs with db := db2 }, hrun, hmapA, hresA, hmapB, hresB,
    fun t => mem_sub_tags⟩

/-- C3 witness: at the root of `fsY` (file `f` tagged `a`), readdir yields
the file entry followed by the `a` directory entry. -/
theorem C3_readdir_projection_witness :
    InoIdsOk fsY.db ∧ fsY.db.entry 1 = .ok (.Tags []) ∧
    (∀ r ∈ fsY.db.tags, ValidTag r.2) ∧
    (∃ A B fs', TagsFs.readdirF fsY 1 0 = (.ok (A ++ B), fs') ∧
      A.map (fun d => (d.kind, d.name)) =
        (fsY.source.filter (fun sf => sf.isFile && tsSubset [] (fsY.db.file_tags sf.name))).map
          (fun sf => (FType.RegularFile, sf.name)) ∧
      (∀ d ∈ A, fs'.db.entry d.ino = .ok (.File d.name)) ∧
      B.map (fun d => (d.kind, d.name)) =
        (fsY.db.sub_tags []).map (fun t => (FType.Directory, t)) ∧
      (∀ d ∈ B, fs'.db.entry d.ino = .ok (.Tags [d.name])) ∧
      (∀ t, t ∈ fsY.db.sub_tags [] ↔ (∃ r ∈ fsY.db.tags, r.2 = t) ∧ t ∉ ([] : List Str))) := by
  refine ⟨by decide, by decide, by decide, ?_⟩
  exact C3_readdir_projection fsY 1 [] (by decide) (by decide) (by decide)

-- ## Claim C8 (readdir frame effect on the inodes table)

/-- C8: during readdir of TagDir(S) at offset 0, an `Entry::File(e)` inode
row ends up present for *every* source entry `e` with tags ⊇ S — including
non-regular entries, which are never emitted in the reply — and every
file-discriminant inode row of the final table is either pre-existing or
belongs to such a qualifying source entry. -/
theorem C8_readdir_inode_side_effect (fs : FS) (ino : Nat) (S : List Str)
    (hino : InoIdsOk fs.db)
    (hp : fs.db.entry ino = .ok (.Tags S))
    (hvalid : ∀ r ∈ fs.db.tags, ValidTag r.2) :
    ∃ es fs', TagsFs.readdirF fs ino 0 = (.ok es, fs') ∧
      (∀ sf ∈ fs.source, tsSubset S (fs.db.file_tags sf.name) = true →
        ∃ r ∈ fs'.db.inodes, r.2 = Entry.discrimimant_data (.File sf.name)) ∧
      (∀ d ∈ es, d.kind = FType.RegularFile →
        ∃ sf ∈ fs.source, sf.isFile = true ∧ sf.name = d.name) ∧
      (∀ r ∈ fs'.db.inodes, r.2.1 = discFile →
        r ∈ fs.db.inodes ∨ ∃ sf ∈ fs.source, tsSubset S (fs.db.file_tags sf.name) = true ∧
          r.2 = Entry.discrimimant_data (.File sf.name)) := by
  obtain ⟨A, B, lA, lB, db2, hrun, hinos, hlAr, hlBr, hrows, hmapA, _, hmapB, _⟩ :=
    readdirF_zero_spec fs ino S hino hp hvalid
  refine ⟨A ++ B, { fs with db := db2 }, hrun, hrows, ?_, ?_⟩
  · intro d hd hk
    rcases List.mem_append.mp hd with h | h
    · have hpair : (d.kind, d.name) ∈ A.map (fun d => (d.kind, d.name)) :=
        List.mem_map.mpr ⟨d, h, rfl⟩
      rw [hmapA] at hpair
      obtain ⟨sf, hsf, hsp⟩ := List.mem_map.mp hpair
      rcases List.mem_filter.mp hsf with ⟨hsm, hpred⟩
      refine ⟨sf, hsm, ?_, ?_⟩
      · exact ((Bool.and_eq_true _ _).mp hpred).1
      · exact (Prod.mk.injEq _ _ _ _).mp hsp |>.2
    · have hpair : (d.kind, d.name) ∈ B.map (fun d => (d.kind, d.name)) :=
        List.mem_map.mpr ⟨d, h, rfl⟩
      rw [hmapB] at hpair
      obtain ⟨t, _, hsp⟩ := List.mem_map.mp hpair
      have : FType.Directory = d.kind := ((Prod.mk.injEq _ _ _ _).mp hsp).1
      rw [hk] at this
      exact absurd this (by decide)
  · intro r hr hdisc
    rw [hinos] at hr
    rcases List.mem_append.mp hr with h | h
    · rcases List.mem_append.mp h with h2 | h2
      · exact Or.inl h2
      · obtain ⟨sf, hsf, hq, hk⟩ := hlAr r h2
        exact Or.inr ⟨sf, hsf, hq, hk⟩
    · obtain ⟨t, _, hk⟩ := hlBr r h
      rw [hk] at hdisc
      exact absurd hdisc (by
        simp only [Entry.discrimimant_data]
        exact fun hc => discFile_ne_discTags hc.symm)

/-- The C8 witness state: an untagged source holding a subdirectory `d` and
a regular file `f` over a fresh index. -/
def fsD : FS := { db := freshDB, source := [{ name := ['d'], isFile := false, content := [] }, { name := ['f'], isFile := true, content := [] }] }

/-- C8 witness: the root readdir of `fsD` creates inode rows for both the
subdirectory `d` and the file `f`, though only `f` is emitted. -/
theorem C8_readdir_inode_side_effect_witness :
    InoIdsOk fsD.db ∧ fsD.db.entry 1 = .ok (.Tags []) ∧
    (∀ r ∈ fsD.db.tags, ValidTag r.2) ∧
    (∃ es fs', TagsFs.readdirF fsD 1 0 = (.ok es, fs') ∧
      (∀ sf ∈ fsD.source, tsSubset [] (fsD.db.file_tags sf.name) = true →
        ∃ r ∈ fs'.db.inodes, r.2 = Entry.discrimimant_data (.File sf.name)) ∧
      (∀ d ∈ es, d.kind = FType.RegularFile →
        ∃ sf ∈ fsD.source, sf.isFile = true ∧ sf.name = d.name) ∧
      (∀ r ∈ fs'.db.inodes, r.2.1 = discFile →
        r ∈ fsD.db.inodes ∨ ∃ sf ∈ fsD.source, tsSubset [] (fsD.db.file_tags sf.name) = true ∧
          r.2 = Entry.discrimimant_data (.File sf.name))) := by
  refine ⟨by decide, by decide, by decide, ?_⟩
  exact C8_readdir_inode_side_effect fsD 1 [] (by decide) (by decide) (by decide)
